import Mathlib

-- Verification development for the command-palette history subsystem
-- (`src-tauri/src/command_palette.rs`).  The SQLite-backed store is embedded
-- as Lean lists of rows; RFC-3339 timestamp strings are embedded as integer
-- instants (seconds), which preserves both ordering (the strings are
-- fixed-width and compare lexicographically like instants) and the
-- second-granularity arithmetic the code performs on them.  Floating-point
-- scores (f64) are embedded as exact rationals.

set_option maxHeartbeats 1000000

-- ## JSON serialization of a `Vec<String>` (serde_json)
--
-- `detect_patterns` persists `command_sequence` via `serde_json::to_string`
-- and `get_patterns` recovers it via `serde_json::from_str`, defaulting to
-- the empty vector on parse failure.  `jsonEncodeList` mirrors serde_json's
-- encoder for `Vec<String>` (escaping `"`, `\` and control characters, the
-- latter as named escapes or lowercase `\u00XX`); `jsonDecodeList` models the
-- parser on such documents.

def hexDig (n : Nat) : Char :=
  if n < 10 then Char.ofNat (48 + n) else Char.ofNat (87 + n)

def escChar (c : Char) : List Char :=
  if c = '"' then ['\\', '"']
  else if c = '\\' then ['\\', '\\']
  else if c.toNat < 32 then
    if c.toNat = 8 then ['\\', 'b']
    else if c.toNat = 9 then ['\\', 't']
    else if c.toNat = 10 then ['\\', 'n']
    else if c.toNat = 12 then ['\\', 'f']
    else if c.toNat = 13 then ['\\', 'r']
    else ['\\', 'u', '0', '0', hexDig (c.toNat / 16), hexDig (c.toNat % 16)]
  else [c]

def jsonEncodeStr (s : String) : List Char :=
  '"' :: (s.data.flatMap escChar ++ ['"'])

def commaJoin : List (List Char) → List Char
  | [] => []
  | [x] => x
  | x :: xs => x ++ ',' :: commaJoin xs

def jsonEncodeList (l : List String) : String :=
  String.mk ('[' :: (commaJoin (l.map jsonEncodeStr) ++ [']']))

def unHex (c : Char) : Option Nat :=
  if 48 ≤ c.toNat ∧ c.toNat ≤ 57 then some (c.toNat - 48)
  else if 97 ≤ c.toNat ∧ c.toNat ≤ 102 then some (c.toNat - 87)
  else if 65 ≤ c.toNat ∧ c.toNat ≤ 70 then some (c.toNat - 55)
  else none

def unEsc (e : Char) : Option Char :=
  if e = '"' then some '"'
  else if e = '\\' then some '\\'
  else if e = '/' then some '/'
  else if e = 'b' then some (Char.ofNat 8)
  else if e = 't' then some (Char.ofNat 9)
  else if e = 'n' then some (Char.ofNat 10)
  else if e = 'f' then some (Char.ofNat 12)
  else if e = 'r' then some (Char.ofNat 13)
  else none

def parseStrBody : List Char → Option (List Char × List Char)
  | [] => none
  | c :: rest =>
    if c = '"' then some ([], rest)
    else if c = '\\' then
      match rest with
      | [] => none
      | 'u' :: h1 :: h2 :: h3 :: h4 :: rest2 =>
        match unHex h1, unHex h2, unHex h3, unHex h4 with
        | some a, some b, some c2, some d =>
          let n := ((a * 16 + b) * 16 + c2) * 16 + d
          if 55296 ≤ n ∧ n < 57344 then none
          else Option.map (fun p => (Char.ofNat n :: p.1, p.2)) (parseStrBody rest2)
        | _, _, _, _ => none
      | e :: rest2 =>
        match unEsc e with
        | some c2 => Option.map (fun p => (c2 :: p.1, p.2)) (parseStrBody rest2)
        | none => none
    else Option.map (fun p => (c :: p.1, p.2)) (parseStrBody rest)

def parseItems : Nat → List Char → Option (List String)
  | 0, _ => none
  | _, [] => none
  | fuel + 1, c :: rest =>
    if c = '"' then
      match parseStrBody rest with
      | none => none
      | some (s, rest2) =>
        match rest2 with
        | ',' :: rest3 => Option.map (fun l => String.mk s :: l) (parseItems fuel rest3)
        | [']'] => some [String.mk s]
        | _ => none
    else none

def jsonDecodeList (s : String) : Option (List String) :=
  match s.data with
  | [] => none
  | c :: rest =>
    if c = '[' then
      if rest = [']'] then some [] else parseItems (rest.length + 1) rest
    else none

theorem stringMk_data (s : String) : String.mk s.data = s := rfl

theorem unHex_hexDig (k : Nat) (h : k < 16) : unHex (hexDig k) = some k := by
  revert k
  decide

theorem parseStrBody_escChar (c : Char) (rest : List Char) :
    parseStrBody (escChar c ++ rest) =
      Option.map (fun p => (c :: p.1, p.2)) (parseStrBody rest) := by
  by_cases hq : c = '"'
  · subst hq
    simp [escChar, parseStrBody, unEsc]
  by_cases hb : c = '\\'
  · subst hb
    simp [escChar, parseStrBody, unEsc]
  by_cases hc : c.toNat < 32
  · have h34 : c.toNat ≠ 34 := fun h => by omega
    have h92 : c.toNat ≠ 92 := fun h => by omega
    by_cases h8 : c.toNat = 8
    · have : c = Char.ofNat 8 := by rw [← h8, Char.ofNat_toNat]
      subst this
      simp [escChar, parseStrBody, unEsc]
    by_cases h9 : c.toNat = 9
    · have : c = Char.ofNat 9 := by rw [← h9, Char.ofNat_toNat]
      subst this
      simp [escChar, parseStrBody, unEsc]
    by_cases h10 : c.toNat = 10
    · have : c = Char.ofNat 10 := by rw [← h10, Char.ofNat_toNat]
      subst this
      simp [escChar, parseStrBody, unEsc]
    by_cases h12 : c.toNat = 12
    · have : c = Char.ofNat 12 := by rw [← h12, Char.ofNat_toNat]
      subst this
      simp [escChar, parseStrBody, unEsc]
    by_cases h13 : c.toNat = 13
    · have : c = Char.ofNat 13 := by rw [← h13, Char.ofNat_toNat]
      subst this
      simp [escChar, parseStrBody, unEsc]
    · have henc : escChar c =
          ['\\', 'u', '0', '0', hexDig (c.toNat / 16), hexDig (c.toNat % 16)] := by
        simp [escChar, hq, hb, hc, h8, h9, h10, h12, h13]
      rw [henc]
      have hdiv : c.toNat / 16 < 16 := by omega
      have hmod : c.toNat % 16 < 16 := Nat.mod_lt _ (by omega)
      have h0 : unHex '0' = some 0 := by decide
      have hval : ((0 * 16 + 0) * 16 + c.toNat / 16) * 16 + c.toNat % 16 = c.toNat := by
        omega
      have hval2 : c.toNat / 16 * 16 + c.toNat % 16 = c.toNat := by omega
      have hsur : ¬ (55296 ≤ c.toNat ∧ c.toNat < 57344) := by omega
      simp only [List.cons_append]
      rw [parseStrBody.eq_def]
      simp [h0, unHex_hexDig _ hdiv, unHex_hexDig _ hmod, hval, hval2, hsur,
        Char.ofNat_toNat]
  · have : escChar c = [c] := by simp [escChar, hq, hb, hc]
    rw [this]
    show parseStrBody (c :: rest) = _
    rw [parseStrBody.eq_def]
    dsimp only
    rw [if_neg hq, if_neg hb]

theorem parseStrBody_encode (s : List Char) (rest : List Char) :
    parseStrBody (s.flatMap escChar ++ ('"' :: rest)) = some (s, rest) := by
  induction s with
  | nil =>
    show parseStrBody ('"' :: rest) = some ([], rest)
    rw [parseStrBody.eq_def]
    dsimp only
    rw [if_pos rfl]
  | cons c tl ih =>
    rw [List.flatMap_cons, List.append_assoc, parseStrBody_escChar, ih]
    rfl

theorem jsonEncodeStr_length_pos (s : String) : 1 ≤ (jsonEncodeStr s).length := by
  simp [jsonEncodeStr]

theorem commaJoin_length (l : List String) :
    l.length ≤ (commaJoin (l.map jsonEncodeStr)).length := by
  induction l with
  | nil => simp [commaJoin]
  | cons s tl ih =>
    cases tl with
    | nil =>
      simpa [commaJoin] using jsonEncodeStr_length_pos s
    | cons t tl2 =>
      have h1 := jsonEncodeStr_length_pos s
      simp only [List.map_cons, commaJoin, List.length_append, List.length_cons]
      simp only [List.map_cons, commaJoin, List.length_cons] at ih
      omega

theorem parseItems_encode (l : List String) (hne : l ≠ []) :
    ∀ fuel, l.length ≤ fuel →
      parseItems fuel (commaJoin (l.map jsonEncodeStr) ++ [']']) = some l := by
  induction l with
  | nil => exact absurd rfl hne
  | cons s tl ih =>
    intro fuel hfuel
    match fuel, hfuel with
    | fuel + 1, hf =>
      cases tl with
      | nil =>
        show parseItems (fuel + 1) (('"' :: (s.data.flatMap escChar ++ ['"'])) ++ [']']) = _
        rw [parseItems.eq_def]
        simp only [List.cons_append, if_pos rfl]
        have : (s.data.flatMap escChar ++ ['"']) ++ [']'] =
            s.data.flatMap escChar ++ ('"' :: [']']) := by simp
        rw [this, parseStrBody_encode]
        simp [stringMk_data]
      | cons t tl2 =>
        show parseItems (fuel + 1)
            ((('"' :: (s.data.flatMap escChar ++ ['"'])) ++
              ',' :: commaJoin ((t :: tl2).map jsonEncodeStr)) ++ [']']) = _
        rw [parseItems.eq_def]
        simp only [List.cons_append, List.append_assoc, List.nil_append, if_pos rfl]
        rw [parseStrBody_encode]
        have hrec := ih (by simp) fuel (by simp at hf ⊢; omega)
        simp only [hrec, stringMk_data]
        rfl

theorem jsonDecode_encode (l : List String) :
    jsonDecodeList (jsonEncodeList l) = some l := by
  cases l with
  | nil => rfl
  | cons s tl =>
    show jsonDecodeList (String.mk ('[' :: (commaJoin _ ++ [']']))) = _
    rw [jsonDecodeList.eq_def]
    dsimp only
    rw [if_pos rfl]
    have hhead : ∃ cs, commaJoin ((s :: tl).map jsonEncodeStr) = '"' :: cs := by
      cases tl with
      | nil => exact ⟨_, rfl⟩
      | cons t tl2 => exact ⟨_, rfl⟩
    obtain ⟨cs, hcs⟩ := hhead
    have hne : ¬ (commaJoin ((s :: tl).map jsonEncodeStr) ++ [']'] = [']']) := by
      rw [hcs]
      intro h
      have := congrArg List.length h
      simp at this
    rw [if_neg hne]
    apply parseItems_encode _ (by simp)
    have := commaJoin_length (s :: tl)
    simp only [List.length_append, List.length_cons] at this ⊢
    omega

-- ## Recent resources table (`record_resource_access`)
--
-- Rows carry the SQLite rowid (`rid`, AUTOINCREMENT) so the retention trim's
-- `ORDER BY timestamp DESC LIMIT 100` can be modelled as a total order
-- (ties on equal timestamps resolved by rowid, a fixed representative of
-- SQLite's unspecified tie order).  Per SQLite semantics, NULLs are distinct
-- for the purposes of the UNIQUE(kind, name, namespace, context) constraint,
-- so `sqlNullEq` is false whenever either side is NULL.

structure RecentResourceRow where
  rid : Nat
  kind : String
  name : String
  namespaceOpt : Option String
  contextOpt : Option String
  timestamp : Int
  access_count : Int
deriving DecidableEq

def sqlNullEq : Option String → Option String → Bool
  | some a, some b => a == b
  | _, _ => false

def resourceKeyConflict (r : RecentResourceRow) (kind name : String)
    (ns ctx : Option String) : Bool :=
  r.kind == kind && r.name == name && sqlNullEq r.namespaceOpt ns &&
    sqlNullEq r.contextOpt ctx

def resLe (a b : RecentResourceRow) : Prop :=
  b.timestamp < a.timestamp ∨ (b.timestamp = a.timestamp ∧ b.rid ≤ a.rid)

instance : DecidableRel resLe := fun a b => by unfold resLe; infer_instance

instance : IsTotal RecentResourceRow resLe := ⟨by intro a b; unfold resLe; omega⟩

instance : IsTrans RecentResourceRow resLe := ⟨by intro a b c; unfold resLe; omega⟩

def trimTop100Res (tbl : List RecentResourceRow) : List RecentResourceRow :=
  (List.insertionSort resLe tbl).take 100

def record_resource_access (tbl : List RecentResourceRow) (kind name : String)
    (ns ctx : Option String) (now : Int) (freshId : Nat) : List RecentResourceRow :=
  let upserted :=
    if tbl.any (fun r => resourceKeyConflict r kind name ns ctx) then
      tbl.map (fun r =>
        if resourceKeyConflict r kind name ns ctx then
          { r with timestamp := now, access_count := r.access_count + 1 }
        else r)
    else
      tbl ++ [⟨freshId, kind, name, ns, ctx, now, 1⟩]
  trimTop100Res upserted

-- ## Recent queries table (`record_query`)

structure RecentQueryRow where
  qid : Nat
  query : String
  timestamp : Int
  result_count : Int
deriving DecidableEq

def qryLe (a b : RecentQueryRow) : Prop :=
  b.timestamp < a.timestamp ∨ (b.timestamp = a.timestamp ∧ b.qid ≤ a.qid)

instance : DecidableRel qryLe := fun a b => by unfold qryLe; infer_instance

instance : IsTotal RecentQueryRow qryLe := ⟨by intro a b; unfold qryLe; omega⟩

instance : IsTrans RecentQueryRow qryLe := ⟨by intro a b c; unfold qryLe; omega⟩

def record_query (tbl : List RecentQueryRow) (query : String) (result_count : Int)
    (now : Int) (freshId : Nat) : List RecentQueryRow :=
  (List.insertionSort qryLe (tbl ++ [⟨freshId, query, now, result_count⟩])).take 100

-- ## Command invocations and statistics (`get_command_stats`)

structure CommandInvocationRow where
  command_id : String
  timestamp : Int
  execution_time_ms : Option Int
  success : Bool
  error_message : Option String
  invContext : Option String
deriving DecidableEq

structure CommandStats where
  command_id : String
  hit_count : Int
  last_used : Int
  avg_execution_time : Option ℚ
deriving DecidableEq

def successFor (tbl : List CommandInvocationRow) (cid : String) :
    List CommandInvocationRow :=
  tbl.filter (fun r => r.command_id == cid && r.success)

def sqlAvg (l : List (Option Int)) : Option ℚ :=
  let es := l.filterMap id
  if es.isEmpty then none else some ((es.map (fun n => (n : ℚ))).sum / es.length)

def statsFor (tbl : List CommandInvocationRow) (cid : String) : List CommandStats :=
  let g := successFor tbl cid
  if g.isEmpty then []
  else
    [{ command_id := cid
       hit_count := (g.length : Int)
       last_used := ((g.map (fun r => r.timestamp)).max?).getD 0
       avg_execution_time := sqlAvg (g.map (fun r => r.execution_time_ms)) }]

def hitLe (a b : CommandStats) : Prop := b.hit_count ≤ a.hit_count

instance : DecidableRel hitLe := fun a b => by unfold hitLe; infer_instance

instance : IsTotal CommandStats hitLe := ⟨fun a b => Int.le_total b.hit_count a.hit_count⟩

instance : IsTrans CommandStats hitLe := ⟨fun _ _ _ hab hbc => le_trans hbc hab⟩

-- The per-id branch of `get_command_stats` builds its SQL by `format!`
-- string interpolation (`WHERE command_id = '{}' AND success = 1`), unlike
-- `record_invocation`, which binds its values with `params!` and therefore
-- stores arbitrary id strings.  `statsQueryFor` is the formatted text with
-- the source's literal around the interpolation hole.  `prepareStats`
-- models preparing that text: it yields `some lit` exactly when the text
-- is the fixed template around one single-quoted SQL string literal of
-- value `lit` (`''` being SQLite's escape for a quote inside a literal);
-- only then does the prepared statement compute the per-id stats with the
-- predicate `command_id = lit`.  Every other shape — e.g. an id containing
-- a bare quote, which leaves an unterminated literal — is a syntax error
-- or a different statement, never the claimed stats query, and the
-- embedding collapses all of those to `none`.

def sqlQuote : Char := Char.ofNat 39

def statsSelectPre : String :=
  "SELECT\n                    command_id,\n                    COUNT(*) as hit_count,\n                    MAX(timestamp) as last_used,\n                    AVG(execution_time_ms) as avg_execution_time\n                 FROM command_invocations\n                 WHERE command_id = "

def statsSelectSuf : String :=
  " AND success = 1\n                 GROUP BY command_id"

def statsQueryFor (id : String) : String :=
  statsSelectPre ++ String.mk [sqlQuote] ++ id ++ String.mk [sqlQuote] ++ statsSelectSuf

def stripPrefixL : List Char → List Char → Option (List Char)
  | [], cs => some cs
  | _ :: _, [] => none
  | p :: ps, c :: cs => if c = p then stripPrefixL ps cs else none

def sqlLitScan : List Char → Bool → Option (List Char × List Char)
  | [], true => some ([], [])
  | [], false => none
  | c :: rest, true =>
    if c = sqlQuote then (sqlLitScan rest false).map (fun p => (sqlQuote :: p.1, p.2))
    else some ([], c :: rest)
  | c :: rest, false =>
    if c = sqlQuote then sqlLitScan rest true
    else (sqlLitScan rest false).map (fun p => (c :: p.1, p.2))

def prepareStats (q : String) : Option String :=
  (stripPrefixL (statsSelectPre.data ++ [sqlQuote]) q.data).bind (fun rest =>
    (sqlLitScan rest false).bind (fun br =>
      if br.2 = statsSelectSuf.data then some (String.mk br.1) else none))

def get_command_stats (cid? : Option String) (tbl : List CommandInvocationRow) :
    Option (List CommandStats) :=
  match cid? with
  | some cid =>
    match prepareStats (statsQueryFor cid) with
    | none => none
    | some lit => some (statsFor tbl lit)
  | none =>
    let cids := ((tbl.filter (fun r => r.success)).map (fun r => r.command_id)).eraseDups
    some (List.insertionSort hitLe (cids.flatMap (statsFor tbl)))

def oBrienId : String := String.mk ['O', sqlQuote, 'B', 'r', 'i', 'e', 'n']

def tblOB : List CommandInvocationRow :=
  [⟨oBrienId, 0, some 100, true, none, none⟩,
   ⟨oBrienId, 1, some 200, true, none, none⟩,
   ⟨oBrienId, 2, none, false, some "boom", none⟩]

-- ## Pattern miner core (`detect_patterns`, lines 552-672)
--
-- `CmdEntry.ts` embeds the stored RFC-3339 timestamp string: `some t` when it
-- parses to instant `t` (seconds), `none` when `parse_from_rfc3339` fails.
-- `detectCore` consumes the chronological command list produced by the SQL
-- load (newest-1000 reversed); gap values are `num_seconds` integers, cast to
-- rationals only where the code casts to f64.  The accumulation map embeds
-- the `HashMap` as an association list in key-insertion order (the map's own
-- iteration order is unspecified in the source; only per-key contents and the
-- final sorted reads depend on it).

structure CmdEntry where
  cmd : String
  ts : Option Int
deriving DecidableEq, Inhabited

def seqLens (minL maxL : Nat) : List Nat := List.range' minL (maxL + 1 - minL)

def windowStarts (n L : Nat) : List Nat := List.range (n - L)

def windowIdx (n minL maxL : Nat) : List (Nat × Nat) :=
  (seqLens minL maxL).flatMap (fun L => (windowStarts n L).map (fun i => (L, i)))

structure PWindow where
  pid : String
  seq : List String
  diffs : List Int
  lastTs : Option Int
deriving DecidableEq

def mkWindow (cs : List CmdEntry) (L i : Nat) : PWindow :=
  let seq := ((cs.drop i).take L).map (fun e => e.cmd)
  { pid := String.intercalate " -> " seq
    seq := seq
    diffs := (List.range (L - 1)).filterMap (fun j =>
      match (cs.getD (i + j) default).ts, (cs.getD (i + j + 1) default).ts with
      | some t1, some t2 => some (t2 - t1)
      | _, _ => none)
    lastTs := (cs.getD (i + L - 1) default).ts }

def windowsOf (cs : List CmdEntry) (minL maxL : Nat) : List PWindow :=
  (windowIdx cs.length minL maxL).map (fun p => mkWindow cs p.1 p.2)

structure PAcc where
  seq : List String
  diffs : List Int
  lastSeen : Option Int
deriving DecidableEq

def lookupA {β : Type} : List (String × β) → String → Option β
  | [], _ => none
  | e :: m, k => if e.1 = k then some e.2 else lookupA m k

def stepWin (m : List (String × PAcc)) (w : PWindow) : List (String × PAcc) :=
  match lookupA m w.pid with
  | some _ => m.map (fun e =>
      if e.1 = w.pid then (e.1, { e.2 with diffs := e.2.diffs ++ w.diffs }) else e)
  | none => m ++ [(w.pid, { seq := w.seq, diffs := w.diffs, lastSeen := w.lastTs })]

def patternMapOf (cs : List CmdEntry) (minL maxL : Nat) : List (String × PAcc) :=
  (windowsOf cs minL maxL).foldl stepWin []

-- Confidence scoring (lines 611-643).  `daysAgo` is chrono's `num_days`,
-- i.e. whole days of the signed duration, truncating toward zero.

def daysAgo (now : Int) (t : Int) : Int := (now - t).tdiv 86400

def recencyFactor (now : Int) : Option Int → ℚ
  | some t => max (1 / (1 + (daysAgo now t : ℚ) / 30)) (1 / 10)
  | none => 1 / 2

def frequencyFactor (freq : Int) : ℚ := min ((freq : ℚ) / 20) 1

def confidenceOf (now : Int) (lastSeen : Option Int) (freq : Int) : ℚ :=
  min (frequencyFactor freq * (7 / 10) + recencyFactor now lastSeen * (3 / 10)) 1

-- Modelled from the spec text of step 6 of the miner, for comparison with
-- the code's formula: the spec additionally clamps the recency factor to at
-- most 1.0 (`clamp(..., min=0.1, max=1.0)`); the code only applies the lower
-- bound `.max(0.1)`.

def recencyFactorSpec (now : Int) : Option Int → ℚ
  | some t => min (max (1 / (1 + (daysAgo now t : ℚ) / 30)) (1 / 10)) 1
  | none => 1 / 2

def confidenceSpec (now : Int) (lastSeen : Option Int) (freq : Int) : ℚ :=
  min (frequencyFactor freq * (7 / 10) + recencyFactorSpec now lastSeen * (3 / 10)) 1

def freqOf (acc : PAcc) : Int := (acc.diffs.length / (max (acc.seq.length - 1) 1) : Nat)

def avgTimeOf (diffs : List Int) : Option ℚ :=
  if diffs.isEmpty then none
  else some ((diffs.map (fun d => (d : ℚ))).sum / diffs.length)

structure CommandPattern where
  pattern_id : String
  command_sequence : List String
  frequency : Int
  confidence : ℚ
  last_seen : Int
  avg_time_between_commands : Option ℚ
deriving DecidableEq

def mkPattern (now : Int) (pid : String) (acc : PAcc) : Option CommandPattern :=
  let freq := freqOf acc
  if freq < 2 then none
  else some
    { pattern_id := pid
      command_sequence := acc.seq
      frequency := freq
      confidence := confidenceOf now acc.lastSeen freq
      last_seen := now
      avg_time_between_commands := avgTimeOf acc.diffs }

def detectCore (cs : List CmdEntry) (minL maxL : Nat) (now : Int) :
    List CommandPattern :=
  (patternMapOf cs minL maxL).filterMap (fun e => mkPattern now e.1 e.2)

-- ## Persisted pattern table and `get_patterns`
--
-- The upsert's DO UPDATE clause overwrites frequency, confidence, last_seen
-- and avg_time_between_commands but, as in the source, not command_sequence.

structure CommandPatternRow where
  pattern_id : String
  command_sequence : String
  frequency : Int
  confidence : ℚ
  last_seen : Int
  avg_time_between_commands : Option ℚ
deriving DecidableEq

def patternToRow (p : CommandPattern) : CommandPatternRow :=
  { pattern_id := p.pattern_id
    command_sequence := jsonEncodeList p.command_sequence
    frequency := p.frequency
    confidence := p.confidence
    last_seen := p.last_seen
    avg_time_between_commands := p.avg_time_between_commands }

def upsertPattern (tbl : List CommandPatternRow) (p : CommandPattern) :
    List CommandPatternRow :=
  if tbl.any (fun r => r.pattern_id == p.pattern_id) then
    tbl.map (fun r =>
      if r.pattern_id == p.pattern_id then
        { r with frequency := p.frequency, confidence := p.confidence,
                 last_seen := p.last_seen,
                 avg_time_between_commands := p.avg_time_between_commands }
      else r)
  else
    tbl ++ [patternToRow p]

def invTsLe (a b : CommandInvocationRow) : Prop := b.timestamp ≤ a.timestamp

instance : DecidableRel invTsLe := fun a b => by unfold invTsLe; infer_instance

instance : IsTotal CommandInvocationRow invTsLe :=
  ⟨fun a b => Int.le_total b.timestamp a.timestamp⟩

instance : IsTrans CommandInvocationRow invTsLe :=
  ⟨fun _ _ _ hab hbc => le_trans hbc hab⟩

def loadCommands (itbl : List CommandInvocationRow) : List CmdEntry :=
  (((List.insertionSort invTsLe (itbl.filter (fun r => r.success))).take 1000).reverse).map
    (fun r => { cmd := r.command_id, ts := some r.timestamp })

def detect_patterns (itbl : List CommandInvocationRow) (ptbl : List CommandPatternRow)
    (minL maxL : Nat) (now : Int) : List CommandPattern × List CommandPatternRow :=
  let cs := loadCommands itbl
  if cs.length < minL then ([], ptbl)
  else
    let pats := detectCore cs minL maxL now
    (pats, pats.foldl upsertPattern ptbl)

def patLe (a b : CommandPatternRow) : Prop :=
  b.confidence < a.confidence ∨
    (b.confidence = a.confidence ∧ b.frequency ≤ a.frequency)

instance : DecidableRel patLe := fun a b => by unfold patLe; infer_instance

instance : IsTotal CommandPatternRow patLe := ⟨by
  intro a b
  unfold patLe
  rcases lt_trichotomy a.confidence b.confidence with h | h | h
  · exact Or.inr (Or.inl h)
  · rcases Int.le_total a.frequency b.frequency with hf | hf
    · exact Or.inr (Or.inr ⟨h, hf⟩)
    · exact Or.inl (Or.inr ⟨h.symm, hf⟩)
  · exact Or.inl (Or.inl h)⟩

instance : IsTrans CommandPatternRow patLe := ⟨by
  intro a b c hab hbc
  unfold patLe at *
  rcases hab with h1 | ⟨h1, h1f⟩ <;> rcases hbc with h2 | ⟨h2, h2f⟩
  · exact Or.inl (h2.trans h1)
  · exact Or.inl (h2 ▸ h1)
  · exact Or.inl (h1 ▸ h2)
  · exact Or.inr ⟨h2.trans h1, h2f.trans h1f⟩⟩

def rowToPattern (r : CommandPatternRow) : CommandPattern :=
  { pattern_id := r.pattern_id
    command_sequence := (jsonDecodeList r.command_sequence).getD []
    frequency := r.frequency
    confidence := r.confidence
    last_seen := r.last_seen
    avg_time_between_commands := r.avg_time_between_commands }

def get_patterns (ptbl : List CommandPatternRow) (min_confidence : ℚ) (limit : Nat) :
    List CommandPattern :=
  ((List.insertionSort patLe
      (ptbl.filter (fun r => min_confidence ≤ r.confidence))).take limit).map
    rowToPattern

-- ## Suggestion engine (`get_pattern_suggestions`, lines 714-783)
--
-- Patterns are read ordered by confidence descending; for each pattern and
-- each window size W in `1..=min(last_commands.len(), sequence.len()-1)` the
-- last W user commands are compared with the first W pattern commands, and a
-- match contributes `sequence[W]` as a candidate.  The candidate map keeps,
-- per next command, the first entry and replaces confidence/frequency only on
-- a strictly greater confidence (the stored source pattern id is never
-- replaced, as in the source's `and_modify` closure).  The map is embedded in
-- key-insertion order; the unspecified HashMap iteration order only permutes
-- equal-confidence ties of the final stable sort.

structure PatternSuggestion where
  next_command : String
  confidence : ℚ
  pattern_frequency : Int
  suggContext : String
deriving DecidableEq

structure LoadedPat where
  pid : String
  seq : List String
  freq : Int
  conf : ℚ
deriving DecidableEq

def rowConfLe (a b : CommandPatternRow) : Prop := b.confidence ≤ a.confidence

instance : DecidableRel rowConfLe := fun a b => by unfold rowConfLe; infer_instance

instance : IsTotal CommandPatternRow rowConfLe :=
  ⟨fun a b => le_total b.confidence a.confidence⟩

instance : IsTrans CommandPatternRow rowConfLe :=
  ⟨fun _ _ _ hab hbc => le_trans hbc hab⟩

def loadPatterns (ptbl : List CommandPatternRow) : List LoadedPat :=
  (List.insertionSort rowConfLe ptbl).map (fun r =>
    { pid := r.pattern_id
      seq := (jsonDecodeList r.command_sequence).getD []
      freq := r.frequency
      conf := r.confidence })

structure Cand where
  next : String
  conf : ℚ
  freq : Int
  pid : String
deriving DecidableEq

def candidatesOf (last_commands : List String) (p : LoadedPat) : List Cand :=
  (List.range' 1 (min last_commands.length (p.seq.length - 1))).filterMap (fun w =>
    if p.seq.length > w ∧
        p.seq.take w = last_commands.drop (last_commands.length - w) then
      some { next := p.seq.getD w "", conf := p.conf, freq := p.freq, pid := p.pid }
    else none)

def allCandidates (ptbl : List CommandPatternRow) (last_commands : List String) :
    List Cand :=
  (loadPatterns ptbl).flatMap (candidatesOf last_commands)

def insCand (m : List (String × (ℚ × Int × String))) (c : Cand) :
    List (String × (ℚ × Int × String)) :=
  match lookupA m c.next with
  | none => m ++ [(c.next, (c.conf, c.freq, c.pid))]
  | some v =>
    if v.1 < c.conf then
      m.map (fun e => if e.1 = c.next then (e.1, (c.conf, c.freq, e.2.2.2)) else e)
    else m

def suggLe (a b : PatternSuggestion) : Prop := b.confidence ≤ a.confidence

instance : DecidableRel suggLe := fun a b => by unfold suggLe; infer_instance

instance : IsTotal PatternSuggestion suggLe :=
  ⟨fun a b => le_total b.confidence a.confidence⟩

instance : IsTrans PatternSuggestion suggLe :=
  ⟨fun _ _ _ hab hbc => le_trans hbc hab⟩

def get_pattern_suggestions (ptbl : List CommandPatternRow)
    (last_commands : List String) (limit : Nat) : List PatternSuggestion :=
  let m := (allCandidates ptbl last_commands).foldl insCand []
  let res := m.map (fun e =>
    { next_command := e.1
      confidence := e.2.1
      pattern_frequency := e.2.2.1
      suggContext := e.2.2.2 })
  (List.insertionSort suggLe res).take limit

-- ## Bounds-checked window construction (for the safety claim)
--
-- `mkWindowChecked` performs every list access of the window loop through
-- optional indexing, failing exactly where the Rust indexing
-- (`commands[i..i+L]`, `commands[i+j]`, `commands[i+j+1]`,
-- `commands[i+L-1]`) would be out of bounds.  Gap values whose timestamps
-- merely fail to parse are skipped, as in the source, not errors.  Natural
-- subtraction makes `L - 1` equal 0 at L = 0 where the Rust `usize`
-- subtraction would overflow, so the model is faithful for L ≥ 1 only; all
-- theorems about it assume `1 ≤ min_sequence_length`.

def optMapAll {α β : Type} (f : α → Option β) : List α → Option (List β)
  | [] => some []
  | a :: l =>
    match f a, optMapAll f l with
    | some b, some bs => some (b :: bs)
    | _, _ => none

def mkWindowChecked (cs : List CmdEntry) (L i : Nat) : Option PWindow :=
  if i + L ≤ cs.length then
    match cs[i + L - 1]? with
    | none => none
    | some lastE =>
      match optMapAll (fun j =>
          match cs[i + j]?, cs[i + j + 1]? with
          | some a, some b => some (a, b)
          | _, _ => none) (List.range (L - 1)) with
      | none => none
      | some pairs =>
        some { pid := String.intercalate " -> " (((cs.drop i).take L).map (fun e => e.cmd))
               seq := ((cs.drop i).take L).map (fun e => e.cmd)
               diffs := pairs.filterMap (fun p =>
                 match p.1.ts, p.2.ts with
                 | some t1, some t2 => some (t2 - t1)
                 | _, _ => none)
               lastTs := lastE.ts }
  else none

def windowsChecked (cs : List CmdEntry) (minL maxL : Nat) : Option (List PWindow) :=
  optMapAll (fun p => mkWindowChecked cs p.1 p.2) (windowIdx cs.length minL maxL)

-- ## Helper lemmas on association-list lookup

theorem lookupA_append {β : Type} (m m2 : List (String × β)) (k : String) :
    lookupA (m ++ m2) k =
      match lookupA m k with
      | some v => some v
      | none => lookupA m2 k := by
  induction m with
  | nil => simp [lookupA]
  | cons e m ih =>
    by_cases h : e.1 = k
    · simp [lookupA, h]
    · simp only [List.cons_append, lookupA, if_neg h]
      exact ih

theorem lookupA_map_upd {β : Type} (m : List (String × β)) (k : String) (g : β → β)
    (pid : String) :
    lookupA (m.map (fun e => if e.1 = k then (e.1, g e.2) else e)) pid =
      (lookupA m pid).map (fun v => if k = pid then g v else v) := by
  induction m with
  | nil => simp [lookupA]
  | cons e m ih =>
    by_cases hp : e.1 = pid
    · by_cases hk : e.1 = k
      · have hkp : k = pid := hk.symm.trans hp
        simp [lookupA, hp, hk, hkp]
      · have hkp : k ≠ pid := fun h => hk (hp.trans h.symm)
        have hpk : pid ≠ k := fun h => hkp h.symm
        simp [lookupA, hp, hk, hkp, hpk]
    · by_cases hk : e.1 = k
      · simp only [List.map_cons, if_pos hk, lookupA, if_neg hp]
        exact ih
      · simp only [List.map_cons, if_neg hk, lookupA, if_neg hp]
        exact ih

theorem lookupA_stepWin_of_some (m : List (String × PAcc)) (w : PWindow)
    (pid : String) (a : PAcc) (h : lookupA m pid = some a) :
    ∃ a', lookupA (stepWin m w) pid = some a' ∧ a'.lastSeen = a.lastSeen ∧
      a'.seq = a.seq := by
  unfold stepWin
  cases hw : lookupA m w.pid with
  | some v =>
    rw [lookupA_map_upd m w.pid (fun x => { x with diffs := x.diffs ++ w.diffs }) pid, h]
    by_cases hp : w.pid = pid
    · exact ⟨{ a with diffs := a.diffs ++ w.diffs }, by simp [hp], rfl, rfl⟩
    · exact ⟨a, by simp [hp], rfl, rfl⟩
  | none =>
    rw [lookupA_append, h]
    exact ⟨a, rfl, rfl, rfl⟩

theorem lookupA_stepWin_new (m : List (String × PAcc)) (w : PWindow)
    (h : lookupA m w.pid = none) :
    lookupA (stepWin m w) w.pid =
      some { seq := w.seq, diffs := w.diffs, lastSeen := w.lastTs } := by
  unfold stepWin
  rw [h]
  rw [lookupA_append, h]
  simp [lookupA]

theorem lookupA_stepWin_other (m : List (String × PAcc)) (w : PWindow) (pid : String)
    (hm : lookupA m pid = none) (hp : w.pid ≠ pid) :
    lookupA (stepWin m w) pid = none := by
  unfold stepWin
  cases hw : lookupA m w.pid with
  | some v =>
    rw [lookupA_map_upd m w.pid (fun x => { x with diffs := x.diffs ++ w.diffs }) pid, hm]
    rfl
  | none =>
    rw [lookupA_append, hm]
    simp [lookupA, hp]

theorem foldl_stepWin_lastSeen :
    ∀ (ws : List PWindow) (m : List (String × PAcc)) (pid : String) (acc : PAcc),
      lookupA (List.foldl stepWin m ws) pid = some acc →
      (∃ a0, lookupA m pid = some a0 ∧ acc.lastSeen = a0.lastSeen ∧ acc.seq = a0.seq) ∨
      (lookupA m pid = none ∧
        ∃ w, ws.find? (fun w2 => w2.pid == pid) = some w ∧
          acc.lastSeen = w.lastTs ∧ acc.seq = w.seq) := by
  intro ws
  induction ws with
  | nil =>
    intro m pid acc h
    exact Or.inl ⟨acc, h, rfl, rfl⟩
  | cons w ws ih =>
    intro m pid acc h
    rw [List.foldl_cons] at h
    rcases ih _ _ _ h with ⟨a0, ha0, hls, hsq⟩ | ⟨hnone, w2, hfind, hls, hsq⟩
    · cases hm : lookupA m pid with
      | some a1 =>
        obtain ⟨a', ha', hls', hsq'⟩ := lookupA_stepWin_of_some m w pid a1 hm
        rw [ha'] at ha0
        injection ha0 with he
        subst he
        exact Or.inl ⟨a1, rfl, hls.trans hls', hsq.trans hsq'⟩
      | none =>
        by_cases hp : w.pid = pid
        · subst hp
          have hnew := lookupA_stepWin_new m w hm
          rw [hnew] at ha0
          injection ha0 with he
          subst he
          refine Or.inr ⟨rfl, w, ?_, hls, hsq⟩
          simp [List.find?]
        · have := lookupA_stepWin_other m w pid hm hp
          rw [this] at ha0
          exact absurd ha0 (by simp)
    · have hm : lookupA m pid = none := by
        cases hm : lookupA m pid with
        | some a1 =>
          obtain ⟨a', ha', _, _⟩ := lookupA_stepWin_of_some m w pid a1 hm
          rw [ha'] at hnone
          exact absurd hnone (by simp)
        | none => rfl
      have hp : w.pid ≠ pid := by
        intro hp
        subst hp
        have := lookupA_stepWin_new m w hm
        rw [this] at hnone
        exact absurd hnone (by simp)
      refine Or.inr ⟨hm, w2, ?_, hls, hsq⟩
      rw [List.find?_cons]
      have : (w.pid == pid) = false := by
        simp [hp]
      rw [this]
      exact hfind

-- ## Concrete inputs used by instance theorems

def cmds6 : List CmdEntry :=
  [⟨"X", some 0⟩, ⟨"Y", some 1⟩, ⟨"X", some 2⟩, ⟨"Y", some 3⟩, ⟨"X", some 4⟩,
   ⟨"Y", some 5⟩]

def cmdsFuture : List CmdEntry :=
  [⟨"X", some 0⟩, ⟨"Y", some 1296000⟩, ⟨"X", some 1296001⟩, ⟨"Y", some 1296002⟩,
   ⟨"X", some 1296003⟩, ⟨"Y", some 1296004⟩]

def insert150 : List RecentQueryRow :=
  (List.range 150).foldl (fun t k => record_query t "" 0 (Int.ofNat k) (k + 1)) []

-- Evaluation helpers for the concrete confidence values.

theorem confidenceOf_37 : confidenceOf 5 (some 1) 2 = 37 / 100 := by
  have hd : daysAgo 5 1 = 0 := by decide
  rw [confidenceOf, recencyFactor, frequencyFactor, hd]
  norm_num [min_def, max_def]

theorem confidenceOf_future : confidenceOf 0 (some 1296000) 2 = 67 / 100 := by
  have hd : daysAgo 0 1296000 = -15 := by decide
  rw [confidenceOf, recencyFactor, frequencyFactor, hd]
  norm_num [min_def, max_def]

theorem confidenceSpec_future : confidenceSpec 0 (some 1296000) 2 = 37 / 100 := by
  have hd : daysAgo 0 1296000 = -15 := by decide
  rw [confidenceSpec, recencyFactorSpec, frequencyFactor, hd]
  norm_num [min_def, max_def]

theorem patternMapOf_cmds6 : patternMapOf cmds6 2 2 =
    [("X -> Y", ⟨["X", "Y"], [1, 1], some 1⟩),
     ("Y -> X", ⟨["Y", "X"], [1, 1], some 2⟩)] := by
  decide

theorem detectCore_cmds6 : detectCore cmds6 2 2 5 =
    [⟨"X -> Y", ["X", "Y"], 2, 37 / 100, 5, some 1⟩,
     ⟨"Y -> X", ["Y", "X"], 2, 37 / 100, 5, some 1⟩] := by
  rw [detectCore, patternMapOf_cmds6]
  have hf : freqOf ⟨["X", "Y"], [1, 1], some 1⟩ = 2 := by decide
  have hf2 : freqOf ⟨["Y", "X"], [1, 1], some 2⟩ = 2 := by decide
  have hd2 : confidenceOf 5 (some 2) 2 = 37 / 100 := by
    have hd : daysAgo 5 2 = 0 := by decide
    rw [confidenceOf, recencyFactor, frequencyFactor, hd]
    norm_num [min_def, max_def]
  have ha : avgTimeOf [1, 1] = some 1 := by
    rw [avgTimeOf]
    norm_num
  simp only [List.filterMap, mkPattern, hf, hf2, ha, confidenceOf_37, hd2]
  norm_num

theorem detectCore_cmdsFuture :
    (detectCore cmdsFuture 2 2 0).map (fun p => (p.pattern_id, p.confidence)) =
      [("X -> Y", 67 / 100), ("Y -> X", 67 / 100)] := by
  have hmap : patternMapOf cmdsFuture 2 2 =
      [("X -> Y", ⟨["X", "Y"], [1296000, 1], some 1296000⟩),
       ("Y -> X", ⟨["Y", "X"], [1, 1], some 1296001⟩)] := by
    decide
  rw [detectCore, hmap]
  have hf : freqOf ⟨["X", "Y"], [1296000, 1], some 1296000⟩ = 2 := by decide
  have hf2 : freqOf ⟨["Y", "X"], [1, 1], some 1296001⟩ = 2 := by decide
  have hc2 : confidenceOf 0 (some 1296001) 2 = 67 / 100 := by
    have hd : daysAgo 0 1296001 = -15 := by decide
    rw [confidenceOf, recencyFactor, frequencyFactor, hd]
    norm_num [min_def, max_def]
  simp only [List.filterMap, mkPattern, hf, hf2, confidenceOf_future, hc2]
  norm_num

-- ## Claim C1

/-- Claim C1 (code bug): the upsert of `record_resource_access` never fires
when `namespace` or `context` is NULL, because SQLite treats NULLs as
distinct in the UNIQUE constraint backing `ON CONFLICT`; two accesses with
the same all-NULL-optional key leave two rows with access_count 1 each,
contradicting the claimed single row with access_count 2.  When both
optional components are present the claimed upsert behaviour does hold:
one row, access_count 2, timestamp of the second access. -/
theorem record_resource_access_upsert :
    (record_resource_access (record_resource_access [] "Pod" "web" none none 0 1)
        "Pod" "web" none none 1 2 =
      [⟨2, "Pod", "web", none, none, 1, 1⟩, ⟨1, "Pod", "web", none, none, 0, 1⟩]) ∧
    (∀ (k n a b : String) (t1 t2 : Int) (id1 id2 : Nat),
      record_resource_access (record_resource_access [] k n (some a) (some b) t1 id1)
          k n (some a) (some b) t2 id2 =
        [⟨id1, k, n, some a, some b, t2, 2⟩]) := by
  constructor
  · decide
  · intro k n a b t1 t2 id1 id2
    have h1 : record_resource_access [] k n (some a) (some b) t1 id1 =
        [⟨id1, k, n, some a, some b, t1, 1⟩] := by
      simp [record_resource_access, trimTop100Res, List.insertionSort,
        List.orderedInsert]
    rw [h1]
    have hc : resourceKeyConflict ⟨id1, k, n, some a, some b, t1, 1⟩ k n
        (some a) (some b) = true := by
      simp [resourceKeyConflict, sqlNullEq]
    simp [record_resource_access, hc, trimTop100Res, List.insertionSort,
      List.orderedInsert]

-- ## Claim C2

/-- Claim C2 (counterexample): the window loop iterates `i` over
`0..commands.len().saturating_sub(seq_len)`, which is `n - L` positions, not
`n - L + 1`; over the six-command chronological history X,Y,X,Y,X,Y with
`min_len = max_len = 2` there are 4 windows, both "X -> Y" and "Y -> X"
occur twice (frequency 2, not 3), and with equal recency their confidences
are equal rather than strictly ordered. -/
theorem sliding_window_count_cex :
    (windowStarts 6 2).length = 4 ∧
    (windowStarts 6 2).length ≠ 6 - 2 + 1 ∧
    (detectCore cmds6 2 2 5).map (fun p => (p.pattern_id, p.frequency)) =
      [("X -> Y", 2), ("Y -> X", 2)] ∧
    (detectCore cmds6 2 2 5).map (fun p => p.confidence) = [37 / 100, 37 / 100] := by
  refine ⟨by decide, by decide, ?_, ?_⟩
  · rw [detectCore_cmds6]
    rfl
  · rw [detectCore_cmds6]
    rfl

/-- Claim C2 (amended): for each length L the window start positions are
`0..n-L-1`, so a list of n commands yields `n - L` windows of length L; for
the chronological history X,Y,X,Y,X,Y with `min_len = max_len = 2` there are
4 windows, "X -> Y" and "Y -> X" each occur twice (frequency 2), and with
equal recency the two confidences are equal. -/
theorem sliding_window_count_amended :
    (∀ n L : Nat, (windowStarts n L).length = n - L) ∧
    (windowStarts 6 2).length = 4 ∧
    ((detectCore cmds6 2 2 5).map (fun p => (p.pattern_id, p.frequency)) =
      [("X -> Y", 2), ("Y -> X", 2)]) ∧
    (∀ p ∈ detectCore cmds6 2 2 5, ∀ q ∈ detectCore cmds6 2 2 5,
      p.confidence = q.confidence) := by
  refine ⟨fun n L => by simp [windowStarts], by decide, ?_, ?_⟩
  · rw [detectCore_cmds6]
    rfl
  · intro p hp q hq
    rw [detectCore_cmds6] at hp hq
    simp only [List.mem_cons, List.not_mem_nil, or_false] at hp hq
    rcases hp with rfl | rfl <;> rcases hq with rfl | rfl <;> rfl

-- ## Claim C3

/-- Claim C3 (counterexample): for the history X,Y,X,Y,X,Y (timestamps
0..5) the pattern "X -> Y" matches the windows at positions 0 and 2, whose
last commands carry timestamps 1 and 3; the accumulated last-seen is the
first window's timestamp 1, not the final matching window's timestamp 3,
because the map's `and_modify` only extends the gap list. -/
theorem lastseen_final_window_cex :
    (lookupA (patternMapOf cmds6 2 2) "X -> Y").map (fun a => a.lastSeen) =
      some (some 1) ∧
    ((windowsOf cmds6 2 2).filter (fun w => w.pid == "X -> Y")).map
        (fun w => w.lastTs) = [some 1, some 3] ∧
    (1 : Int) ≠ 3 := by
  decide

/-- Claim C3 (amended): the last-seen timestamp accumulated for a pattern id
is the timestamp of the last command of the FIRST window processed with that
id (the `or_insert` value; `and_modify` never overwrites it), and this value
is the one the confidence computation's recency factor consumes. -/
theorem pattern_lastseen_first_window (cs : List CmdEntry) (minL maxL : Nat)
    (pid : String) (acc : PAcc)
    (h : lookupA (patternMapOf cs minL maxL) pid = some acc) :
    ∃ w, (windowsOf cs minL maxL).find? (fun w2 => w2.pid == pid) = some w ∧
      acc.lastSeen = w.lastTs ∧
      ∀ (now : Int) (p : CommandPattern), mkPattern now pid acc = some p →
        p.confidence = confidenceOf now w.lastTs p.frequency := by
  have hmain := foldl_stepWin_lastSeen (windowsOf cs minL maxL) [] pid acc h
  rcases hmain with ⟨a0, ha0, _, _⟩ | ⟨_, w, hfind, hls, _⟩
  · simp [lookupA] at ha0
  · refine ⟨w, hfind, hls, ?_⟩
    intro now p hp
    simp only [mkPattern] at hp
    split at hp
    · exact absurd hp (by simp)
    · injection hp with he
      subst he
      show confidenceOf now acc.lastSeen (freqOf acc) =
        confidenceOf now w.lastTs (freqOf acc)
      rw [hls]

/-- Claim C3 witness: the amended statement applied to the concrete history
X,Y,X,Y,X,Y and the accumulated entry for "X -> Y". -/
theorem pattern_lastseen_first_window_witness :
    ∃ w, (windowsOf cmds6 2 2).find? (fun w2 => w2.pid == "X -> Y") = some w ∧
      (PAcc.mk ["X", "Y"] [1, 1] (some 1)).lastSeen = w.lastTs ∧
      ∀ (now : Int) (p : CommandPattern),
        mkPattern now "X -> Y" (PAcc.mk ["X", "Y"] [1, 1] (some 1)) = some p →
          p.confidence = confidenceOf now w.lastTs p.frequency :=
  pattern_lastseen_first_window cmds6 2 2 "X -> Y"
    (PAcc.mk ["X", "Y"] [1, 1] (some 1)) (by decide)

-- ## Claim C9

/-- Claim C9: when fewer successful invocations are stored than
`min_sequence_length`, `detect_patterns` returns an empty pattern list
without error and leaves the pattern table unchanged. -/
theorem detect_patterns_below_min (itbl : List CommandInvocationRow)
    (ptbl : List CommandPatternRow) (minL maxL : Nat) (now : Int)
    (h : (itbl.filter (fun r => r.success)).length < minL) :
    detect_patterns itbl ptbl minL maxL now = ([], ptbl) := by
  have hlen : (loadCommands itbl).length =
      min 1000 ((itbl.filter (fun r => r.success)).length) := by
    simp [loadCommands]
  have hcond : (loadCommands itbl).length < minL := by omega
  simp [detect_patterns, hcond]

/-- Claim C9 witness: an empty invocation table with `min_sequence_length`
2 yields no patterns and an unchanged (empty) pattern table. -/
theorem detect_patterns_below_min_witness :
    detect_patterns [] [] 2 3 0 = ([], []) :=
  detect_patterns_below_min [] [] 2 3 0 (by decide)

-- ## Claim C4

theorem recencyFactor_nonneg (now : Int) (ls : Option Int) :
    0 ≤ recencyFactor now ls := by
  cases ls with
  | none => norm_num [recencyFactor]
  | some t =>
    rw [recencyFactor]
    exact le_trans (by norm_num) (le_max_right _ _)

theorem frequencyFactor_nonneg (freq : Int) (h : 0 ≤ freq) :
    0 ≤ frequencyFactor freq := by
  rw [frequencyFactor]
  refine le_min (div_nonneg ?_ (by norm_num)) (by norm_num)
  exact_mod_cast h

theorem confidenceOf_nonneg (now : Int) (ls : Option Int) (freq : Int)
    (h : 0 ≤ freq) : 0 ≤ confidenceOf now ls freq := by
  rw [confidenceOf]
  refine le_min ?_ (by norm_num)
  exact add_nonneg (mul_nonneg (frequencyFactor_nonneg freq h) (by norm_num))
    (mul_nonneg (recencyFactor_nonneg now ls) (by norm_num))

/-- Claim C4 (counterexample): on a history whose pattern's accumulated
last-seen timestamp lies 15 days in the future of `now`, the code's recency
factor is `max(1/(1+(-15)/30), 0.1) = 2` with no upper clamp, so the pattern
"X -> Y" is scored 67/100, while the claimed formula with
`clamp(..., min=0.1, max=1.0)` yields 37/100. -/
theorem confidence_clamp_cex :
    (detectCore cmdsFuture 2 2 0).map (fun p => (p.pattern_id, p.confidence)) =
      [("X -> Y", 67 / 100), ("Y -> X", 67 / 100)] ∧
    confidenceSpec 0 (some 1296000) 2 = 37 / 100 ∧
    (67 : ℚ) / 100 ≠ 37 / 100 :=
  ⟨detectCore_cmdsFuture, confidenceSpec_future, by norm_num⟩

/-- Claim C4 (amended): every pattern scored by `detect_patterns` has
frequency at least 2 and confidence in [0,1]; the confidence equals
`min(0.7*frequency_factor + 0.3*recency_factor, 1)` where the recency factor
is `max(1/(1+days/30), 0.1)` with NO upper clamp — which coincides with the
claimed `clamp(..., min=0.1, max=1.0)` whenever the last-seen timestamp is
not in the future — and the parse-failure fallback is 0.5. -/
theorem detect_confidence_amended :
    (∀ (cs : List CmdEntry) (minL maxL : Nat) (now : Int) (p : CommandPattern),
      p ∈ detectCore cs minL maxL now →
        2 ≤ p.frequency ∧ 0 ≤ p.confidence ∧ p.confidence ≤ 1) ∧
    (∀ (now t freq : Int), 0 ≤ daysAgo now t →
      confidenceOf now (some t) freq = confidenceSpec now (some t) freq) ∧
    (∀ now : Int, recencyFactor now none = 1 / 2) := by
  refine ⟨?_, ?_, fun now => rfl⟩
  · intro cs minL maxL now p hp
    rw [detectCore] at hp
    obtain ⟨e, he, hmk⟩ := List.mem_filterMap.mp hp
    simp only [mkPattern] at hmk
    split at hmk
    · exact absurd hmk (by simp)
    · rename_i hf
      injection hmk with he2
      subst he2
      refine ⟨not_lt.mp hf, ?_, ?_⟩
      · show 0 ≤ confidenceOf now e.2.lastSeen (freqOf e.2)
        exact confidenceOf_nonneg now e.2.lastSeen (freqOf e.2)
          (le_trans (by norm_num) (not_lt.mp hf))
      · show confidenceOf now e.2.lastSeen (freqOf e.2) ≤ 1
        exact min_le_right _ _
  · intro now t freq h
    have hd : (0 : ℚ) ≤ ((daysAgo now t : Int) : ℚ) := by exact_mod_cast h
    have hden : (0 : ℚ) < 1 + ((daysAgo now t : Int) : ℚ) / 30 := by
      have := div_nonneg hd (by norm_num : (0 : ℚ) ≤ 30)
      linarith
    have hone : (1 : ℚ) / (1 + ((daysAgo now t : Int) : ℚ) / 30) ≤ 1 := by
      rw [div_le_one hden]
      have := div_nonneg hd (by norm_num : (0 : ℚ) ≤ 30)
      linarith
    have hrs : recencyFactorSpec now (some t) = recencyFactor now (some t) := by
      rw [recencyFactorSpec, recencyFactor]
      exact min_eq_left (max_le hone (by norm_num))
    rw [confidenceOf, confidenceSpec, hrs]

-- ## Claim C6

def tblA : List CommandInvocationRow :=
  [⟨"A", 0, some 100, true, none, none⟩,
   ⟨"A", 1, some 200, true, none, none⟩,
   ⟨"A", 2, none, false, none, none⟩]

theorem stripPrefixL_append (p r : List Char) : stripPrefixL p (p ++ r) = some r := by
  induction p with
  | nil => rfl
  | cons c ps ih => simp [stripPrefixL, ih]

theorem stripPrefixL_cons_append (p : List Char) (a : Char) (r : List Char) :
    stripPrefixL (p ++ [a]) (p ++ a :: r) = some r := by
  have h := stripPrefixL_append (p ++ [a]) r
  simpa [List.append_assoc] using h

theorem sqlLitScan_exact (body rest : List Char) (hb : sqlQuote ∉ body)
    (hr : ∀ c, rest.head? = some c → c ≠ sqlQuote) :
    sqlLitScan (body ++ sqlQuote :: rest) false = some (body, rest) := by
  induction body with
  | nil =>
    rw [List.nil_append]
    show sqlLitScan (sqlQuote :: rest) false = some ([], rest)
    rw [sqlLitScan, if_pos rfl]
    cases rest with
    | nil => rfl
    | cons c l =>
      rw [sqlLitScan, if_neg (hr c rfl)]
  | cons b bs ih =>
    have hbq : b ≠ sqlQuote := fun h => hb (h ▸ List.mem_cons_self b bs)
    have hbs : sqlQuote ∉ bs := fun h => hb (List.mem_cons_of_mem b h)
    rw [List.cons_append]
    show sqlLitScan (b :: (bs ++ sqlQuote :: rest)) false = some (b :: bs, rest)
    rw [sqlLitScan, if_neg hbq, ih hbs]
    rfl

theorem prepareStats_clean (cid : String) (h : sqlQuote ∉ cid.data) :
    prepareStats (statsQueryFor cid) = some cid := by
  have hdata : (statsQueryFor cid).data =
      statsSelectPre.data ++ sqlQuote :: (cid.data ++ sqlQuote :: statsSelectSuf.data) := by
    simp [statsQueryFor, String.data_append]
  have hr : ∀ c, statsSelectSuf.data.head? = some c → c ≠ sqlQuote := by
    intro c hc
    rw [show statsSelectSuf.data.head? = some (Char.ofNat 32) from by decide] at hc
    injection hc with hc
    subst hc
    decide
  rw [show statsSelectPre.data ++ sqlQuote :: (cid.data ++ sqlQuote :: statsSelectSuf.data) =
        (statsSelectPre.data ++ [sqlQuote]) ++ (cid.data ++ sqlQuote :: statsSelectSuf.data)
      from by simp] at hdata
  simp only [prepareStats, hdata, stripPrefixL_append, Option.some_bind,
    sqlLitScan_exact cid.data statsSelectSuf.data h hr, if_pos rfl]
  simp

set_option maxRecDepth 100000 in
/-- Claim C6 (code bug): the per-id branch of `get_command_stats` builds
its query by `format!` interpolation, so for a stored command id containing
a single quote — e.g. "O'Brien", storable via the parameter-bound
`record_invocation` — the text `WHERE command_id = 'O'Brien' AND ...` is
not the stats query for that id at all (its literal terminates after 'O',
leaving a syntax error), and the call errors instead of returning the
claimed stats, even though the grouped no-id query reports exactly the
claimed success-only stats for the same stored rows.  For every id without
a single quote the interpolated text round-trips, and then the claimed
semantics hold: success-only counting and averaging, the [A 100ms, A
200ms, A failure] example, invariance under dropping failed or
other-command rows, and per-entry agreement of the grouped query with the
single-command query. -/
theorem command_stats_quote_injection :
    (get_command_stats (some oBrienId) tblOB = none) ∧
    (get_command_stats none tblOB = some [⟨oBrienId, 2, 1, some 150⟩]) ∧
    (∀ cid : String, sqlQuote ∉ cid.data → ∀ tbl : List CommandInvocationRow,
      get_command_stats (some cid) tbl = some (statsFor tbl cid)) ∧
    (get_command_stats (some "A") tblA = some [⟨"A", 2, 1, some 150⟩]) ∧
    (∀ (cid : String) (tbl : List CommandInvocationRow),
      statsFor tbl cid = statsFor (tbl.filter (fun r => r.success)) cid) ∧
    (∀ (cid : String) (tbl : List CommandInvocationRow),
      statsFor tbl cid = statsFor (tbl.filter (fun r => r.command_id == cid)) cid) ∧
    (∀ (tbl : List CommandInvocationRow) (s : CommandStats),
      s ∈ (get_command_stats none tbl).getD [] → sqlQuote ∉ s.command_id.data →
        get_command_stats (some s.command_id) tbl = some [s]) := by
  have hclean : ∀ cid : String, sqlQuote ∉ cid.data →
      ∀ tbl : List CommandInvocationRow,
        get_command_stats (some cid) tbl = some (statsFor tbl cid) := by
    intro cid h tbl
    simp only [get_command_stats, prepareStats_clean cid h]
  have hstatsOB : statsFor tblOB oBrienId = [⟨oBrienId, 2, 1, some 150⟩] := by
    have hg : successFor tblOB oBrienId =
        [⟨oBrienId, 0, some 100, true, none, none⟩,
         ⟨oBrienId, 1, some 200, true, none, none⟩] := by
      decide
    have havg : sqlAvg
        ([(⟨oBrienId, 0, some 100, true, none, none⟩ : CommandInvocationRow),
          ⟨oBrienId, 1, some 200, true, none, none⟩].map
            (fun r => r.execution_time_ms)) = some 150 := by
      have hes : List.filterMap id [some (100 : Int), some 200] = [100, 200] := by
        decide
      simp only [List.map_cons, List.map_nil, sqlAvg, hes]
      norm_num
    have hmax : ((([(⟨oBrienId, 0, some 100, true, none, none⟩ : CommandInvocationRow),
        ⟨oBrienId, 1, some 200, true, none, none⟩]).map (fun r => r.timestamp)).max?).getD
          0 = 1 := by
      decide
    simp only [statsFor, hg, havg, hmax]
    norm_num
  refine ⟨?_, ?_, hclean, ?_, ?_, ?_, ?_⟩
  · have hnone : prepareStats (statsQueryFor oBrienId) = none := by decide
    simp only [get_command_stats, hnone]
  · have hcids : (((tblOB.filter (fun r => r.success)).map
        (fun r => r.command_id)).eraseDups) = [oBrienId] := by decide
    simp only [get_command_stats, hcids, List.flatMap_cons, List.flatMap_nil,
      List.append_nil, hstatsOB]
    rfl
  · rw [hclean "A" (by decide) tblA]
    have hg : successFor tblA "A" =
        [⟨"A", 0, some 100, true, none, none⟩, ⟨"A", 1, some 200, true, none, none⟩] := by
      decide
    have havg : sqlAvg
        ([(⟨"A", 0, some 100, true, none, none⟩ : CommandInvocationRow),
          ⟨"A", 1, some 200, true, none, none⟩].map (fun r => r.execution_time_ms)) =
        some 150 := by
      have hes : List.filterMap id [some (100 : Int), some 200] = [100, 200] := by
        decide
      simp only [List.map_cons, List.map_nil, sqlAvg, hes]
      norm_num
    have hmax : ((([(⟨"A", 0, some 100, true, none, none⟩ : CommandInvocationRow),
        ⟨"A", 1, some 200, true, none, none⟩]).map (fun r => r.timestamp)).max?).getD 0 =
        1 := by
      decide
    simp only [statsFor, hg, havg, hmax]
    norm_num
  · intro cid tbl
    have hsf : successFor (tbl.filter (fun r => r.success)) cid = successFor tbl cid := by
      rw [successFor, successFor, List.filter_filter]
      apply List.filter_congr
      intro r _
      cases hs : r.success <;> simp [hs]
    show statsFor tbl cid = statsFor (tbl.filter (fun r => r.success)) cid
    simp only [statsFor, hsf]
  · intro cid tbl
    have hsf : successFor (tbl.filter (fun r => r.command_id == cid)) cid =
        successFor tbl cid := by
      rw [successFor, successFor, List.filter_filter]
      apply List.filter_congr
      intro r _
      cases hc : r.command_id == cid <;> simp [hc]
    show statsFor tbl cid = statsFor (tbl.filter (fun r => r.command_id == cid)) cid
    simp only [statsFor, hsf]
  · intro tbl s hs hq
    simp only [get_command_stats, Option.getD_some] at hs
    rw [List.mem_insertionSort] at hs
    obtain ⟨cid, hcid, hsf⟩ := List.mem_flatMap.mp hs
    simp only [statsFor] at hsf
    split at hsf
    · exact absurd hsf (by simp)
    · rename_i hne
      rw [List.mem_singleton] at hsf
      subst hsf
      rw [hclean _ hq tbl]
      show some (statsFor tbl cid) = _
      simp only [statsFor]
      rw [if_neg hne]

-- ## Claim C7

set_option maxRecDepth 100000 in
set_option maxHeartbeats 4000000 in
/-- Claim C7: every `record_query` leaves at most 100 rows — exactly
`min(previous + 1, 100)` — and each surviving row ranks at least as recent
as every trimmed row in the timestamp-descending order backing
`ORDER BY timestamp DESC LIMIT 100`; folding 150 inserts with increasing
timestamps 0..149 over an empty table leaves exactly the 100 rows with
timestamps 149 down to 50. -/
theorem query_retention :
    (∀ (tbl : List RecentQueryRow) (q : String) (rc now : Int) (id : Nat),
      (record_query tbl q rc now id).length = min (tbl.length + 1) 100) ∧
    (∀ (tbl : List RecentQueryRow) (q : String) (rc now : Int) (id : Nat),
      ∀ r ∈ record_query tbl q rc now id,
        ∀ s ∈ (List.insertionSort qryLe (tbl ++ [⟨id, q, now, rc⟩])).drop 100,
          qryLe r s) ∧
    (insert150.length = 100 ∧
      insert150.map (fun r => r.timestamp) =
        (List.range 100).map (fun k => (149 : Int) - Int.ofNat k)) := by
  refine ⟨?_, ?_, by decide⟩
  · intro tbl q rc now id
    simp only [record_query, List.length_take, List.length_insertionSort,
      List.length_append, List.length_cons, List.length_nil]
    omega
  · intro tbl q rc now id r hr s hs
    have key : ∀ (l : List RecentQueryRow), l.Pairwise qryLe →
        ∀ r2 ∈ l.take 100, ∀ s2 ∈ l.drop 100, qryLe r2 s2 := by
      intro l hl r2 hr2 s2 hs2
      rw [← List.take_append_drop 100 l] at hl
      exact (List.pairwise_append.mp hl).2.2 r2 hr2 s2 hs2
    simp only [record_query] at hr
    exact key _ (List.sorted_insertionSort qryLe _) r hr s hs

-- ## Claim C10

theorem optMapAll_eq_map {α β : Type} (f : α → Option β) (g : α → β) (l : List α)
    (h : ∀ x ∈ l, f x = some (g x)) : optMapAll f l = some (l.map g) := by
  induction l with
  | nil => rfl
  | cons a l ih =>
    rw [optMapAll, h a (by simp), ih (fun x hx => h x (by simp [hx]))]
    rfl

theorem mem_windowIdx (n minL maxL : Nat) (p : Nat × Nat)
    (h : p ∈ windowIdx n minL maxL) :
    minL ≤ p.1 ∧ p.1 ≤ maxL ∧ p.2 < n - p.1 := by
  rw [windowIdx] at h
  obtain ⟨L2, hL2, hmem⟩ := List.mem_flatMap.mp h
  obtain ⟨i2, hi2, heq⟩ := List.mem_map.mp hmem
  subst heq
  rw [seqLens, List.mem_range'_1] at hL2
  rw [windowStarts, List.mem_range] at hi2
  exact ⟨hL2.1, by omega, hi2⟩

theorem mkWindowChecked_eq (cs : List CmdEntry) (L i : Nat) (hL : 1 ≤ L)
    (hi : i < cs.length - L) :
    mkWindowChecked cs L i = some (mkWindow cs L i) := by
  have hin : i + L < cs.length := by omega
  have hlast : i + L - 1 < cs.length := by omega
  have hgd : ∀ k : Nat, k < cs.length → cs[k]? = some (cs.getD k default) := by
    intro k hk
    rw [List.getElem?_eq_getElem hk, List.getD_eq_getElem?_getD,
      List.getElem?_eq_getElem hk]
    rfl
  rw [mkWindowChecked, if_pos (show i + L ≤ cs.length by omega), hgd _ hlast]
  have hpairs : optMapAll (fun j =>
      match cs[i + j]?, cs[i + j + 1]? with
      | some a, some b => some (a, b)
      | _, _ => none) (List.range (L - 1)) =
      some ((List.range (L - 1)).map
        (fun j => (cs.getD (i + j) default, cs.getD (i + j + 1) default))) := by
    apply optMapAll_eq_map
    intro j hj
    rw [List.mem_range] at hj
    rw [hgd (i + j) (by omega), hgd (i + j + 1) (by omega)]
  rw [hpairs]
  simp only [List.filterMap_map]
  rfl

/-- Claim C10: with `min_sequence_length ≥ 1` every index and slice taken by
the window loops of `detect_patterns` is within bounds — the bounds-checked
variant of the window construction succeeds and computes exactly the
unchecked windows.  (The model does not cover `min_sequence_length = 0`,
where the Rust `0..seq_len - 1` gap range underflows an unsigned length.) -/
theorem detect_window_safety (cs : List CmdEntry) (minL maxL : Nat)
    (h : 1 ≤ minL) :
    windowsChecked cs minL maxL = some (windowsOf cs minL maxL) := by
  rw [windowsChecked, windowsOf]
  apply optMapAll_eq_map
  intro p hp
  obtain ⟨h1, h2, h3⟩ := mem_windowIdx cs.length minL maxL p hp
  exact mkWindowChecked_eq cs p.1 p.2 (le_trans h h1) h3

/-- Claim C10 witness: the checked window construction on a concrete
three-command history with lengths 1..2. -/
theorem detect_window_safety_witness :
    windowsChecked [⟨"a", some 0⟩, ⟨"b", some 1⟩, ⟨"c", some 2⟩] 1 2 =
      some (windowsOf [⟨"a", some 0⟩, ⟨"b", some 1⟩, ⟨"c", some 2⟩] 1 2) :=
  detect_window_safety [⟨"a", some 0⟩, ⟨"b", some 1⟩, ⟨"c", some 2⟩] 1 2
    (by decide)

-- ## Claim C8

theorem lookupA_eq_none_iff {β : Type} (m : List (String × β)) (k : String) :
    lookupA m k = none ↔ ∀ e ∈ m, e.1 ≠ k := by
  induction m with
  | nil => simp [lookupA]
  | cons e m ih =>
    by_cases h : e.1 = k
    · simp [lookupA, h]
    · simp [lookupA, h, ih]

theorem stepWin_keys (m : List (String × PAcc)) (w : PWindow)
    (h : (m.map Prod.fst).Nodup) : ((stepWin m w).map Prod.fst).Nodup := by
  unfold stepWin
  cases hw : lookupA m w.pid with
  | some v =>
    have hkeys : ((m.map (fun e =>
        if e.1 = w.pid then (e.1, { e.2 with diffs := e.2.diffs ++ w.diffs }) else e)).map
          Prod.fst) = m.map Prod.fst := by
      rw [List.map_map]
      apply List.map_congr_left
      intro e _
      by_cases hk : e.1 = w.pid <;> simp [hk]
    rw [hkeys]
    exact h
  | none =>
    have hnotin : ∀ a ∈ m.map Prod.fst, a ≠ w.pid := by
      intro a ha
      obtain ⟨e, he, rfl⟩ := List.mem_map.mp ha
      exact (lookupA_eq_none_iff m w.pid).mp hw e he
    simp only [List.map_append, List.map_cons, List.map_nil]
    rw [List.nodup_append]
    refine ⟨h, by simp, ?_⟩
    intro a ha hb
    rw [List.mem_singleton] at hb
    exact hnotin a ha hb

theorem foldl_stepWin_keys :
    ∀ (ws : List PWindow) (m : List (String × PAcc)),
      (m.map Prod.fst).Nodup → ((List.foldl stepWin m ws).map Prod.fst).Nodup := by
  intro ws
  induction ws with
  | nil => intro m h; exact h
  | cons w ws ih =>
    intro m h
    rw [List.foldl_cons]
    exact ih _ (stepWin_keys m w h)

theorem patternMapOf_keys_nodup (cs : List CmdEntry) (minL maxL : Nat) :
    ((patternMapOf cs minL maxL).map Prod.fst).Nodup := by
  rw [patternMapOf]
  exact foldl_stepWin_keys _ [] (by simp)

theorem mkPattern_pid (now : Int) (pid : String) (acc : PAcc) (p : CommandPattern)
    (h : mkPattern now pid acc = some p) : p.pattern_id = pid := by
  simp only [mkPattern] at h
  split at h
  · exact absurd h (by simp)
  · injection h with h2
    rw [← h2]

theorem detectCore_pids_sublist (cs : List CmdEntry) (minL maxL : Nat) (now : Int) :
    List.Sublist ((detectCore cs minL maxL now).map (fun p => p.pattern_id))
      ((patternMapOf cs minL maxL).map Prod.fst) := by
  rw [detectCore]
  generalize patternMapOf cs minL maxL = m
  induction m with
  | nil => simp
  | cons e m ih =>
    rw [List.filterMap_cons]
    cases hmk : mkPattern now e.1 e.2 with
    | none =>
      simp only [List.map_cons]
      exact ih.trans (List.sublist_cons_self _ _)
    | some p =>
      simp only [List.map_cons]
      rw [mkPattern_pid now e.1 e.2 p hmk]
      exact ih.cons₂ _

theorem foldl_upsertPattern_fresh :
    ∀ (pats : List CommandPattern) (tbl : List CommandPatternRow),
      ((pats.map (fun p => p.pattern_id)).Nodup) →
      (∀ p ∈ pats, ∀ r ∈ tbl, r.pattern_id ≠ p.pattern_id) →
      List.foldl upsertPattern tbl pats = tbl ++ pats.map patternToRow := by
  intro pats
  induction pats with
  | nil =>
    intro tbl _ _
    simp
  | cons p ps ih =>
    intro tbl hnd hfresh
    rw [List.foldl_cons]
    have hany : tbl.any (fun r => r.pattern_id == p.pattern_id) = false := by
      rw [List.any_eq_false]
      intro r hr
      simp [hfresh p (by simp) r hr]
    have hstep : upsertPattern tbl p = tbl ++ [patternToRow p] := by
      rw [upsertPattern, hany]
      simp
    rw [hstep]
    rw [ih (tbl ++ [patternToRow p]) (List.nodup_cons.mp hnd).2 ?_]
    · simp
    · intro q hq r hr
      rcases List.mem_append.mp hr with hr | hr
      · exact hfresh q (by simp [hq]) r hr
      · rw [List.mem_singleton] at hr
        subst hr
        show (patternToRow p).pattern_id ≠ q.pattern_id
        have hnotin := (List.nodup_cons.mp hnd).1
        intro hEq
        apply hnotin
        rw [List.mem_map]
        exact ⟨q, hq, hEq.symm⟩

theorem upsertPattern_pids (tbl : List CommandPatternRow) (q : CommandPattern) :
    (upsertPattern tbl q).map (fun r => r.pattern_id) =
        tbl.map (fun r => r.pattern_id) ∨
      (upsertPattern tbl q).map (fun r => r.pattern_id) =
        tbl.map (fun r => r.pattern_id) ++ [q.pattern_id] := by
  rw [upsertPattern]
  split
  · left
    rw [List.map_map]
    apply List.map_congr_left
    intro r _
    simp only [Function.comp]
    cases hc : r.pattern_id == q.pattern_id <;> simp [hc]
  · right
    simp [patternToRow]

theorem mem_foldl_upsertPattern_preserved :
    ∀ (pats : List CommandPattern) (tbl : List CommandPatternRow)
      (r : CommandPatternRow), r ∈ tbl →
      r.pattern_id ∉ pats.map (fun p => p.pattern_id) →
      r ∈ List.foldl upsertPattern tbl pats := by
  intro pats
  induction pats with
  | nil =>
    intro tbl r hr _
    simpa using hr
  | cons q rest ih =>
    intro tbl r hr hnp
    simp only [List.map_cons, List.mem_cons, not_or] at hnp
    obtain ⟨hne, hrest⟩ := hnp
    rw [List.foldl_cons]
    apply ih
    · rw [upsertPattern]
      split
      · exact List.mem_map.mpr ⟨r, hr, by simp [hne]⟩
      · exact List.mem_append_left _ hr
    · exact hrest

theorem mem_foldl_upsertPattern_fresh :
    ∀ (pats : List CommandPattern) (tbl : List CommandPatternRow)
      (p : CommandPattern), p ∈ pats →
      ((pats.map (fun q => q.pattern_id)).Nodup) →
      p.pattern_id ∉ tbl.map (fun r => r.pattern_id) →
      patternToRow p ∈ List.foldl upsertPattern tbl pats := by
  intro pats
  induction pats with
  | nil =>
    intro tbl p hp
    simp at hp
  | cons q rest ih =>
    intro tbl p hp hnd hfresh
    rw [List.map_cons, List.nodup_cons] at hnd
    obtain ⟨hqr, hndr⟩ := hnd
    rw [List.foldl_cons]
    rcases List.mem_cons.mp hp with hpq | hprest
    · subst hpq
      have hany : tbl.any (fun r => r.pattern_id == p.pattern_id) = false := by
        rw [List.any_eq_false]
        intro r hr
        simp only [beq_iff_eq]
        intro hc
        exact hfresh (List.mem_map.mpr ⟨r, hr, hc⟩)
      have hstep : upsertPattern tbl p = tbl ++ [patternToRow p] := by
        rw [upsertPattern, hany]
        simp
      rw [hstep]
      apply mem_foldl_upsertPattern_preserved
      · exact List.mem_append_right _ (List.mem_singleton.mpr rfl)
      · show (patternToRow p).pattern_id ∉ _
        simpa [patternToRow] using hqr
    · have hne : p.pattern_id ≠ q.pattern_id := by
        intro h
        apply hqr
        rw [← h]
        exact List.mem_map.mpr ⟨p, hprest, rfl⟩
      rcases upsertPattern_pids tbl q with hpids | hpids
      · exact ih (upsertPattern tbl q) p hprest hndr (by rw [hpids]; exact hfresh)
      · refine ih (upsertPattern tbl q) p hprest hndr ?_
        rw [hpids]
        simp only [List.mem_append, List.mem_singleton, not_or]
        exact ⟨hfresh, hne⟩

/-- Claim C8 (amended): a pattern persisted by `detect_patterns` whose
pattern_id is not already present in the pattern table is read back by
`get_patterns` (with a confidence threshold and limit admitting it) with
exactly the same ordered command-id list in `command_sequence` — for a
fresh pattern_id the row is INSERTed with the serde_json-encoded sequence
and the write/read of the sequence is the identity.  For a pattern_id
already in the table the ON CONFLICT DO UPDATE branch rewrites frequency,
confidence and last_seen but leaves the old row's command_sequence in
place; the counterexample shows this breaking the unrestricted claim. -/
theorem get_patterns_roundtrip (itbl : List CommandInvocationRow)
    (ptbl : List CommandPatternRow)
    (minL maxL : Nat) (now : Int) (minConf : ℚ) (limit : Nat) (p : CommandPattern)
    (hp : p ∈ (detect_patterns itbl ptbl minL maxL now).1)
    (hfresh : p.pattern_id ∉ ptbl.map (fun r => r.pattern_id))
    (hconf : minConf ≤ p.confidence)
    (hlim : (detect_patterns itbl ptbl minL maxL now).2.length ≤ limit) :
    ∃ q ∈ get_patterns (detect_patterns itbl ptbl minL maxL now).2 minConf limit,
      q.pattern_id = p.pattern_id ∧ q.command_sequence = p.command_sequence := by
  by_cases hg : (loadCommands itbl).length < minL
  · simp [detect_patterns, hg] at hp
  · have hdp : detect_patterns itbl ptbl minL maxL now =
        (detectCore (loadCommands itbl) minL maxL now,
          List.foldl upsertPattern ptbl (detectCore (loadCommands itbl) minL maxL now)) := by
      simp [detect_patterns, hg]
    rw [hdp] at hp hlim ⊢
    dsimp only at hp hlim ⊢
    have hnd : ((detectCore (loadCommands itbl) minL maxL now).map
        (fun p => p.pattern_id)).Nodup :=
      (patternMapOf_keys_nodup (loadCommands itbl) minL maxL).sublist
        (detectCore_pids_sublist (loadCommands itbl) minL maxL now)
    have hrow : patternToRow p ∈
        List.foldl upsertPattern ptbl (detectCore (loadCommands itbl) minL maxL now) :=
      mem_foldl_upsertPattern_fresh (detectCore (loadCommands itbl) minL maxL now)
        ptbl p hp hnd hfresh
    rw [get_patterns]
    have hfil : patternToRow p ∈
        (List.foldl upsertPattern ptbl
            (detectCore (loadCommands itbl) minL maxL now)).filter
          (fun r => decide (minConf ≤ r.confidence)) := by
      rw [List.mem_filter]
      exact ⟨hrow, by simpa [patternToRow] using hconf⟩
    have hsort : patternToRow p ∈
        List.insertionSort patLe
          ((List.foldl upsertPattern ptbl
              (detectCore (loadCommands itbl) minL maxL now)).filter
            (fun r => decide (minConf ≤ r.confidence))) :=
      (List.mem_insertionSort patLe).mpr hfil
    have hlen : (List.insertionSort patLe
        ((List.foldl upsertPattern ptbl
            (detectCore (loadCommands itbl) minL maxL now)).filter
          (fun r => decide (minConf ≤ r.confidence)))).length ≤ limit := by
      rw [List.length_insertionSort]
      exact le_trans (List.length_filter_le _ _) hlim
    rw [List.take_of_length_le hlen]
    refine ⟨rowToPattern (patternToRow p), List.mem_map_of_mem rowToPattern hsort,
      rfl, ?_⟩
    show (jsonDecodeList (jsonEncodeList p.command_sequence)).getD [] =
      p.command_sequence
    rw [jsonDecode_encode]
    rfl

def itbl6 : List CommandInvocationRow :=
  [⟨"X", 0, none, true, none, none⟩, ⟨"Y", 1, none, true, none, none⟩,
   ⟨"X", 2, none, true, none, none⟩, ⟨"Y", 3, none, true, none, none⟩,
   ⟨"X", 4, none, true, none, none⟩, ⟨"Y", 5, none, true, none, none⟩]

/-- Claim C8 witness: the round-trip applied to the "X -> Y" pattern mined
from six alternating successful invocations over an empty pattern table. -/
theorem get_patterns_roundtrip_witness :
    ∃ q ∈ get_patterns (detect_patterns itbl6 [] 2 2 5).2 0 10,
      q.pattern_id = "X -> Y" ∧ q.command_sequence = ["X", "Y"] := by
  have hload : loadCommands itbl6 = cmds6 := by decide
  have hg : ¬ (loadCommands itbl6).length < 2 := by
    rw [hload]
    decide
  have hp : (⟨"X -> Y", ["X", "Y"], 2, 37 / 100, 5, some 1⟩ : CommandPattern) ∈
      (detect_patterns itbl6 [] 2 2 5).1 := by
    have h1 : (detect_patterns itbl6 [] 2 2 5).1 =
        detectCore (loadCommands itbl6) 2 2 5 := by
      simp [detect_patterns, hg]
    rw [h1, hload, detectCore_cmds6]
    simp
  have hconf : (0 : ℚ) ≤ (37 : ℚ) / 100 := by norm_num
  have hlim : (detect_patterns itbl6 [] 2 2 5).2.length ≤ 10 := by
    have h2 : (detect_patterns itbl6 [] 2 2 5).2 =
        List.foldl upsertPattern [] (detectCore (loadCommands itbl6) 2 2 5) := by
      simp [detect_patterns, hg]
    rw [h2, hload, detectCore_cmds6]
    simp [upsertPattern, patternToRow]
  obtain ⟨q, hq, h1, h2⟩ := get_patterns_roundtrip itbl6 [] 2 2 5 0 10
    ⟨"X -> Y", ["X", "Y"], 2, 37 / 100, 5, some 1⟩ hp (by simp) hconf hlim
  exact ⟨q, hq, h1, h2⟩

def itblPrev : List CommandInvocationRow :=
  [⟨"X -> Y", 0, none, true, none, none⟩, ⟨"X", 1, none, true, none, none⟩,
   ⟨"X -> Y", 2, none, true, none, none⟩, ⟨"X", 3, none, true, none, none⟩,
   ⟨"X -> Y", 4, none, true, none, none⟩]

def itbl7 : List CommandInvocationRow :=
  [⟨"X", 0, none, true, none, none⟩, ⟨"Y", 1, none, true, none, none⟩,
   ⟨"X", 2, none, true, none, none⟩, ⟨"Y", 3, none, true, none, none⟩,
   ⟨"X", 4, none, true, none, none⟩, ⟨"Y", 5, none, true, none, none⟩,
   ⟨"X", 6, none, true, none, none⟩]

def cmdsPrev : List CmdEntry :=
  [⟨"X -> Y", some 0⟩, ⟨"X", some 1⟩, ⟨"X -> Y", some 2⟩, ⟨"X", some 3⟩,
   ⟨"X -> Y", some 4⟩]

def cmds7 : List CmdEntry :=
  [⟨"X", some 0⟩, ⟨"Y", some 1⟩, ⟨"X", some 2⟩, ⟨"Y", some 3⟩, ⟨"X", some 4⟩,
   ⟨"Y", some 5⟩, ⟨"X", some 6⟩]

def rowPrev : CommandPatternRow :=
  ⟨"X -> Y -> X", jsonEncodeList ["X -> Y", "X"], 2, 37 / 100, 4, some 1⟩

def rowXYX : CommandPatternRow :=
  ⟨"X -> Y -> X", jsonEncodeList ["X -> Y", "X"], 2, 37 / 100, 6, some 1⟩

def rowYXY : CommandPatternRow :=
  ⟨"Y -> X -> Y", jsonEncodeList ["Y", "X", "Y"], 2, 37 / 100, 6, some 1⟩

theorem patternMapOf_cmdsPrev : patternMapOf cmdsPrev 2 2 =
    [("X -> Y -> X", ⟨["X -> Y", "X"], [1, 1], some 1⟩),
     ("X -> X -> Y", ⟨["X", "X -> Y"], [1], some 2⟩)] := by
  decide

theorem detectCore_cmdsPrev : detectCore cmdsPrev 2 2 4 =
    [⟨"X -> Y -> X", ["X -> Y", "X"], 2, 37 / 100, 4, some 1⟩] := by
  rw [detectCore, patternMapOf_cmdsPrev]
  have hf1 : freqOf ⟨["X -> Y", "X"], [1, 1], some 1⟩ = 2 := by decide
  have hf2 : freqOf ⟨["X", "X -> Y"], [1], some 2⟩ = 1 := by decide
  have hc1 : confidenceOf 4 (some 1) 2 = 37 / 100 := by
    have hd : daysAgo 4 1 = 0 := by decide
    rw [confidenceOf, recencyFactor, frequencyFactor, hd]
    norm_num [min_def, max_def]
  have ha : avgTimeOf [1, 1] = some 1 := by
    rw [avgTimeOf]
    norm_num
  simp only [List.filterMap, mkPattern, hf1, hf2, ha, hc1]
  norm_num

theorem patternMapOf_cmds7 : patternMapOf cmds7 3 3 =
    [("X -> Y -> X", ⟨["X", "Y", "X"], [1, 1, 1, 1], some 2⟩),
     ("Y -> X -> Y", ⟨["Y", "X", "Y"], [1, 1, 1, 1], some 3⟩)] := by
  decide

theorem detectCore_cmds7 : detectCore cmds7 3 3 6 =
    [⟨"X -> Y -> X", ["X", "Y", "X"], 2, 37 / 100, 6, some 1⟩,
     ⟨"Y -> X -> Y", ["Y", "X", "Y"], 2, 37 / 100, 6, some 1⟩] := by
  rw [detectCore, patternMapOf_cmds7]
  have hf1 : freqOf ⟨["X", "Y", "X"], [1, 1, 1, 1], some 2⟩ = 2 := by decide
  have hf2 : freqOf ⟨["Y", "X", "Y"], [1, 1, 1, 1], some 3⟩ = 2 := by decide
  have hc1 : confidenceOf 6 (some 2) 2 = 37 / 100 := by
    have hd : daysAgo 6 2 = 0 := by decide
    rw [confidenceOf, recencyFactor, frequencyFactor, hd]
    norm_num [min_def, max_def]
  have hc2 : confidenceOf 6 (some 3) 2 = 37 / 100 := by
    have hd : daysAgo 6 3 = 0 := by decide
    rw [confidenceOf, recencyFactor, frequencyFactor, hd]
    norm_num [min_def, max_def]
  have ha : avgTimeOf [1, 1, 1, 1] = some 1 := by
    rw [avgTimeOf]
    norm_num
  simp only [List.filterMap, mkPattern, hf1, hf2, ha, hc1, hc2]
  norm_num

/-- Claim C8 (counterexample): two successive `detect_patterns` runs over
command ids actually storable by `record_invocation` break the write/read
round-trip.  The first run mines the sequence ["X -> Y", "X"] (one stored
id contains the separator) and persists it under pattern_id
"X -> Y -> X", since the " -> " join is not injective.  The second run
mines ["X", "Y", "X"] — the same pattern_id — and persists it through the
ON CONFLICT(pattern_id) DO UPDATE branch, which rewrites frequency,
confidence and last_seen but not command_sequence.  With threshold 0 and
limit 10 admitting every row, `get_patterns` then returns
["X -> Y", "X"] for that pattern, not the just-persisted
["X", "Y", "X"]. -/
theorem pattern_roundtrip_cex :
    ((detect_patterns itbl7 (detect_patterns itblPrev [] 2 2 4).2 3 3 6).1.map
        (fun p => (p.pattern_id, p.command_sequence)) =
      [("X -> Y -> X", ["X", "Y", "X"]), ("Y -> X -> Y", ["Y", "X", "Y"])]) ∧
    ((get_patterns (detect_patterns itbl7 (detect_patterns itblPrev [] 2 2 4).2 3 3 6).2
          0 10).map (fun p => (p.pattern_id, p.command_sequence)) =
      [("X -> Y -> X", ["X -> Y", "X"]), ("Y -> X -> Y", ["Y", "X", "Y"])]) ∧
    (["X -> Y", "X"] ≠ (["X", "Y", "X"] : List String)) := by
  have hloadP : loadCommands itblPrev = cmdsPrev := by decide
  have hgP : ¬ (loadCommands itblPrev).length < 2 := by
    rw [hloadP]
    decide
  have hprev : (detect_patterns itblPrev [] 2 2 4).2 = [rowPrev] := by
    have h2 : (detect_patterns itblPrev [] 2 2 4).2 =
        List.foldl upsertPattern [] (detectCore (loadCommands itblPrev) 2 2 4) := by
      simp [detect_patterns, hgP]
    rw [h2, hloadP, detectCore_cmdsPrev]
    rfl
  have hload7 : loadCommands itbl7 = cmds7 := by decide
  have hg7 : ¬ (loadCommands itbl7).length < 3 := by
    rw [hload7]
    decide
  have hdet : detect_patterns itbl7 (detect_patterns itblPrev [] 2 2 4).2 3 3 6 =
      ([⟨"X -> Y -> X", ["X", "Y", "X"], 2, 37 / 100, 6, some 1⟩,
        ⟨"Y -> X -> Y", ["Y", "X", "Y"], 2, 37 / 100, 6, some 1⟩],
       [rowXYX, rowYXY]) := by
    rw [hprev]
    have h1 : detect_patterns itbl7 [rowPrev] 3 3 6 =
        (detectCore (loadCommands itbl7) 3 3 6,
         List.foldl upsertPattern [rowPrev] (detectCore (loadCommands itbl7) 3 3 6)) := by
      simp [detect_patterns, hg7]
    rw [h1, hload7, detectCore_cmds7]
    rfl
  rw [hdet]
  refine ⟨rfl, ?_, by decide⟩
  have h0 : (0 : ℚ) ≤ 37 / 100 := by norm_num
  have hfil : ([rowXYX, rowYXY]).filter (fun r => decide ((0 : ℚ) ≤ r.confidence)) =
      [rowXYX, rowYXY] := by
    simp [List.filter_cons, List.filter_nil, rowXYX, rowYXY, h0]
  have hs : List.Sorted patLe [rowXYX, rowYXY] := by
    simp [List.sorted_cons, patLe, rowXYX, rowYXY]
  show (get_patterns [rowXYX, rowYXY] 0 10).map
      (fun p => (p.pattern_id, p.command_sequence)) = _
  simp only [get_patterns]
  rw [hfil, List.Sorted.insertionSort_eq hs,
    List.take_of_length_le (by simp : ([rowXYX, rowYXY]).length ≤ 10)]
  simp only [List.map_cons, List.map_nil, rowToPattern, rowXYX, rowYXY,
    jsonDecode_encode, Option.getD_some]

-- ## Claim C5

theorem lookupA_mem {β : Type} (m : List (String × β)) (k : String) (v : β)
    (h : lookupA m k = some v) : (k, v) ∈ m := by
  induction m with
  | nil => simp [lookupA] at h
  | cons e m ih =>
    by_cases he : e.1 = k
    · rw [lookupA, if_pos he] at h
      injection h with h2
      subst h2
      subst he
      simp
    · rw [lookupA, if_neg he] at h
      exact List.mem_cons_of_mem _ (ih h)

theorem lookupA_of_mem_nodup {β : Type} (m : List (String × β)) (e : String × β)
    (hnd : (m.map Prod.fst).Nodup) (he : e ∈ m) : lookupA m e.1 = some e.2 := by
  induction m with
  | nil => simp at he
  | cons f m ih =>
    rcases List.mem_cons.mp he with rfl | he2
    · rw [lookupA, if_pos rfl]
    · have hne : f.1 ≠ e.1 := by
        intro hEq
        have := (List.nodup_cons.mp hnd).1
        apply this
        rw [hEq]
        exact List.mem_map_of_mem Prod.fst he2
      rw [lookupA, if_neg hne]
      exact ih (List.nodup_cons.mp hnd).2 he2

theorem insCand_keys_upd (m : List (String × (ℚ × Int × String))) (c : Cand) :
    ((m.map (fun e => if e.1 = c.next then (e.1, (c.conf, c.freq, e.2.2.2)) else e)).map
      Prod.fst) = m.map Prod.fst := by
  rw [List.map_map]
  apply List.map_congr_left
  intro e _
  by_cases hk : e.1 = c.next <;> simp [hk]


theorem insCand_length (m : List (String × (ℚ × Int × String))) (c : Cand) :
    (insCand m c).length ≤ m.length + 1 := by
  unfold insCand
  cases lookupA m c.next with
  | none => simp
  | some v =>
    by_cases hlt : v.1 < c.conf
    · simp [hlt]
    · simp [hlt]

theorem insCand_inv_step (m : List (String × (ℚ × Int × String))) (done : List Cand)
    (c : Cand)
    (hnd : (m.map Prod.fst).Nodup)
    (hsound : ∀ e ∈ m, ∃ c2 ∈ done, c2.next = e.1 ∧ c2.conf = e.2.1)
    (hmax : ∀ e ∈ m, ∀ c2 ∈ done, c2.next = e.1 → c2.conf ≤ e.2.1)
    (hcomp : ∀ c2 ∈ done, ∃ e ∈ m, e.1 = c2.next) :
    ((insCand m c).map Prod.fst).Nodup ∧
    (∀ e ∈ insCand m c, ∃ c2 ∈ done ++ [c], c2.next = e.1 ∧ c2.conf = e.2.1) ∧
    (∀ e ∈ insCand m c, ∀ c2 ∈ done ++ [c], c2.next = e.1 → c2.conf ≤ e.2.1) ∧
    (∀ c2 ∈ done ++ [c], ∃ e ∈ insCand m c, e.1 = c2.next) := by
  cases hl : lookupA m c.next with
  | none =>
    have hm' : insCand m c = m ++ [(c.next, (c.conf, c.freq, c.pid))] := by
      simp [insCand, hl]
    have hkeyn : ∀ e ∈ m, e.1 ≠ c.next := (lookupA_eq_none_iff m c.next).mp hl
    rw [hm']
    refine ⟨?_, ?_, ?_, ?_⟩
    · simp only [List.map_append, List.map_cons, List.map_nil]
      rw [List.nodup_append]
      refine ⟨hnd, by simp, ?_⟩
      intro a ha hb
      rw [List.mem_singleton] at hb
      obtain ⟨e, he, rfl⟩ := List.mem_map.mp ha
      exact hkeyn e he hb
    · intro e he
      rcases List.mem_append.mp he with h1 | h1
      · obtain ⟨c2, hc2, hx, hy⟩ := hsound e h1
        exact ⟨c2, List.mem_append_left _ hc2, hx, hy⟩
      · rw [List.mem_singleton] at h1
        subst h1
        exact ⟨c, List.mem_append_right _ (by simp), rfl, rfl⟩
    · intro e he c2 hc2 hkey
      rcases List.mem_append.mp he with h1 | h1
      · rcases List.mem_append.mp hc2 with h2 | h2
        · exact hmax e h1 c2 h2 hkey
        · rw [List.mem_singleton] at h2
          rw [h2] at hkey
          exact absurd hkey.symm (hkeyn e h1)
      · rw [List.mem_singleton] at h1
        subst h1
        rcases List.mem_append.mp hc2 with h2 | h2
        · obtain ⟨e0, he0, hkey0⟩ := hcomp c2 h2
          exact absurd (hkey0.trans hkey) (hkeyn e0 he0)
        · rw [List.mem_singleton] at h2
          rw [h2]
    · intro c2 hc2
      rcases List.mem_append.mp hc2 with h2 | h2
      · obtain ⟨e, he, hkey⟩ := hcomp c2 h2
        exact ⟨e, List.mem_append_left _ he, hkey⟩
      · rw [List.mem_singleton] at h2
        rw [h2]
        exact ⟨(c.next, (c.conf, c.freq, c.pid)), List.mem_append_right _ (by simp), rfl⟩
  | some v =>
    by_cases hlt : v.1 < c.conf
    · have hm' : insCand m c =
          m.map (fun e => if e.1 = c.next then (e.1, (c.conf, c.freq, e.2.2.2)) else e) := by
        simp [insCand, hl, hlt]
      rw [hm']
      refine ⟨?_, ?_, ?_, ?_⟩
      · rw [insCand_keys_upd]
        exact hnd
      · intro e' he'
        obtain ⟨e, he, hupd⟩ := List.mem_map.mp he'
        by_cases hk : e.1 = c.next
        · rw [if_pos hk] at hupd
          subst hupd
          exact ⟨c, List.mem_append_right _ (by simp), hk.symm, rfl⟩
        · rw [if_neg hk] at hupd
          subst hupd
          obtain ⟨c2, hc2, hx, hy⟩ := hsound e he
          exact ⟨c2, List.mem_append_left _ hc2, hx, hy⟩
      · intro e' he' c2 hc2 hkey
        obtain ⟨e, he, hupd⟩ := List.mem_map.mp he'
        by_cases hk : e.1 = c.next
        · rw [if_pos hk] at hupd
          subst hupd
          rcases List.mem_append.mp hc2 with h2 | h2
          · have h1 : c2.conf ≤ e.2.1 := hmax e he c2 h2 hkey
            have hv : e.2 = v := by
              have hq := lookupA_of_mem_nodup m e hnd he
              rw [hk] at hq
              rw [hq] at hl
              injection hl
            show c2.conf ≤ c.conf
            calc c2.conf ≤ e.2.1 := h1
              _ = v.1 := by rw [hv]
              _ ≤ c.conf := le_of_lt hlt
          · rw [List.mem_singleton] at h2
            rw [h2]
        · rw [if_neg hk] at hupd
          subst hupd
          rcases List.mem_append.mp hc2 with h2 | h2
          · exact hmax e he c2 h2 hkey
          · rw [List.mem_singleton] at h2
            rw [h2] at hkey
            exact absurd hkey.symm hk
      · intro c2 hc2
        rcases List.mem_append.mp hc2 with h2 | h2
        · obtain ⟨e, he, hkey⟩ := hcomp c2 h2
          refine ⟨if e.1 = c.next then (e.1, (c.conf, c.freq, e.2.2.2)) else e,
            List.mem_map_of_mem _ he, ?_⟩
          by_cases hk : e.1 = c.next
          · rw [if_pos hk]
            exact hkey
          · rw [if_neg hk]
            exact hkey
        · rw [List.mem_singleton] at h2
          rw [h2]
          have hvmem := lookupA_mem m c.next v hl
          refine ⟨(c.next, (c.conf, c.freq, v.2.2)), ?_, rfl⟩
          have himg := List.mem_map_of_mem
            (fun e => if e.1 = c.next then (e.1, (c.conf, c.freq, e.2.2.2)) else e) hvmem
          simpa using himg
    · have hm' : insCand m c = m := by
        simp [insCand, hl, hlt]
      rw [hm']
      refine ⟨hnd, ?_, ?_, ?_⟩
      · intro e he
        obtain ⟨c2, hc2, hx, hy⟩ := hsound e he
        exact ⟨c2, List.mem_append_left _ hc2, hx, hy⟩
      · intro e he c2 hc2 hkey
        rcases List.mem_append.mp hc2 with h2 | h2
        · exact hmax e he c2 h2 hkey
        · rw [List.mem_singleton] at h2
          rw [h2] at hkey ⊢
          have hv : e.2 = v := by
            have hq := lookupA_of_mem_nodup m e hnd he
            rw [← hkey] at hq
            rw [hq] at hl
            injection hl
          show c.conf ≤ e.2.1
          rw [hv]
          exact not_lt.mp hlt
      · intro c2 hc2
        rcases List.mem_append.mp hc2 with h2 | h2
        · exact hcomp c2 h2
        · rw [List.mem_singleton] at h2
          rw [h2]
          exact ⟨(c.next, v), lookupA_mem m c.next v hl, rfl⟩

theorem foldl_insCand_inv :
    ∀ (cands : List Cand) (m : List (String × (ℚ × Int × String))) (done : List Cand),
      (m.map Prod.fst).Nodup →
      (∀ e ∈ m, ∃ c2 ∈ done, c2.next = e.1 ∧ c2.conf = e.2.1) →
      (∀ e ∈ m, ∀ c2 ∈ done, c2.next = e.1 → c2.conf ≤ e.2.1) →
      (∀ c2 ∈ done, ∃ e ∈ m, e.1 = c2.next) →
      ((List.foldl insCand m cands).map Prod.fst).Nodup ∧
      (∀ e ∈ List.foldl insCand m cands,
        ∃ c2 ∈ done ++ cands, c2.next = e.1 ∧ c2.conf = e.2.1) ∧
      (∀ e ∈ List.foldl insCand m cands,
        ∀ c2 ∈ done ++ cands, c2.next = e.1 → c2.conf ≤ e.2.1) ∧
      (∀ c2 ∈ done ++ cands, ∃ e ∈ List.foldl insCand m cands, e.1 = c2.next) ∧
      (List.foldl insCand m cands).length ≤ m.length + cands.length := by
  intro cands
  induction cands with
  | nil =>
    intro m done hnd hsound hmax hcomp
    simp only [List.foldl_nil, List.append_nil, List.length_nil]
    exact ⟨hnd, hsound, hmax, hcomp, by omega⟩
  | cons c cs ih =>
    intro m done hnd hsound hmax hcomp
    rw [List.foldl_cons]
    obtain ⟨hnd', hsound', hmax', hcomp'⟩ :=
      insCand_inv_step m done c hnd hsound hmax hcomp
    obtain ⟨a1, a2, a3, a4, a5⟩ := ih (insCand m c) (done ++ [c]) hnd' hsound' hmax' hcomp'
    rw [List.append_assoc, List.singleton_append] at a2 a3 a4
    refine ⟨a1, a2, a3, a4, ?_⟩
    have hil := insCand_length m c
    simp only [List.length_cons]
    omega

/-- Claim C5: for the persisted pattern "A -> B -> C" with confidence 0.9
and `last_commands = [A, B]`, the suggestions are exactly ["C" at 0.9]; in
general every returned suggestion's confidence equals the confidence of
some matching pattern window candidate for that next command and dominates
the confidence of every matching candidate for it, the result is sorted by
confidence descending, truncated to the limit, and (before truncation)
contains an entry for every matched candidate. -/
theorem suggestion_ranking :
    (get_pattern_suggestions
        [⟨"A -> B -> C", jsonEncodeList ["A", "B", "C"], 5, 9 / 10, 0, none⟩]
        ["A", "B"] 10 =
      [⟨"C", 9 / 10, 5, "A -> B -> C"⟩]) ∧
    (∀ (ptbl : List CommandPatternRow) (last_commands : List String) (limit : Nat)
        (s : PatternSuggestion),
      s ∈ get_pattern_suggestions ptbl last_commands limit →
        (∃ c ∈ allCandidates ptbl last_commands,
          c.next = s.next_command ∧ c.conf = s.confidence) ∧
        (∀ c ∈ allCandidates ptbl last_commands,
          c.next = s.next_command → c.conf ≤ s.confidence)) ∧
    (∀ (ptbl : List CommandPatternRow) (last_commands : List String) (limit : Nat),
      (get_pattern_suggestions ptbl last_commands limit).length ≤ limit) ∧
    (∀ (ptbl : List CommandPatternRow) (last_commands : List String) (limit : Nat),
      (get_pattern_suggestions ptbl last_commands limit).Pairwise suggLe) ∧
    (∀ (ptbl : List CommandPatternRow) (last_commands : List String),
      ∀ c ∈ allCandidates ptbl last_commands,
        ∃ s ∈ get_pattern_suggestions ptbl last_commands
            (allCandidates ptbl last_commands).length,
          s.next_command = c.next) := by
  refine ⟨?_, ?_, ?_, ?_, ?_⟩
  · have hdec : jsonDecodeList (jsonEncodeList ["A", "B", "C"]) = some ["A", "B", "C"] :=
      jsonDecode_encode _
    simp [get_pattern_suggestions, allCandidates, loadPatterns, candidatesOf, insCand,
      lookupA, List.insertionSort, List.orderedInsert, hdec, List.range']
  · intro ptbl last_commands limit s hs
    obtain ⟨hnd, hsound, hmax, hcomp, _⟩ :=
      foldl_insCand_inv (allCandidates ptbl last_commands) [] []
        (by simp) (by simp) (by simp) (by simp)
    simp only [List.nil_append] at hsound hmax hcomp
    simp only [get_pattern_suggestions] at hs
    have hs2 := List.mem_of_mem_take hs
    have hs3 := (List.mem_insertionSort suggLe).mp hs2
    obtain ⟨e, he, hse⟩ := List.mem_map.mp hs3
    subst hse
    constructor
    · obtain ⟨c, hc, h1, h2⟩ := hsound e he
      exact ⟨c, hc, h1, h2⟩
    · intro c hc hkey
      exact hmax e he c hc hkey
  · intro ptbl last_commands limit
    simp only [get_pattern_suggestions, List.length_take]
    omega
  · intro ptbl last_commands limit
    simp only [get_pattern_suggestions]
    exact List.Pairwise.sublist (List.take_sublist _ _)
      (List.sorted_insertionSort suggLe _)
  · intro ptbl last_commands c hc
    obtain ⟨hnd, hsound, hmax, hcomp, hlen⟩ :=
      foldl_insCand_inv (allCandidates ptbl last_commands) [] []
        (by simp) (by simp) (by simp) (by simp)
    simp only [List.nil_append] at hcomp
    simp only [List.length_nil, Nat.zero_add] at hlen
    obtain ⟨e, he, hkey⟩ := hcomp c hc
    simp only [get_pattern_suggestions]
    have hlen2 : (List.insertionSort suggLe
        ((List.foldl insCand [] (allCandidates ptbl last_commands)).map (fun e =>
          { next_command := e.1, confidence := e.2.1, pattern_frequency := e.2.2.1,
            suggContext := e.2.2.2 }))).length ≤
        (allCandidates ptbl last_commands).length := by
      rw [List.length_insertionSort, List.length_map]
      omega
    rw [List.take_of_length_le hlen2]
    exact ⟨_, (List.mem_insertionSort suggLe).mpr (List.mem_map_of_mem _ he), hkey⟩
